import Mathlib

/-!
# Mosayc pipeline orchestration engine: a verification model

The repository documents a pipeline orchestration engine (the `mosayc`
Python library): users register named tasks with declared dependencies;
the engine validates the resulting graph, determines a valid execution
order, runs tasks under a chosen concurrency mode, applies per-task retry
and caching policies, and aggregates results into one report.

The repository ships only the documentation of that engine
(`src/docs/concepts/*.md`, the Pipeline API reference), not its
implementation, so every definition below is modelled from the spec and
from the behaviors stated in the documentation.  Machine details that the
documents leave open (wall-clock durations, timestamps, tracing) are not
modelled; time for cache TTL purposes is a logical `Nat` clock.
-/

namespace Mosayc

/-- Modelled from the spec: opaque output values produced by tasks
("output value (opaque to the engine)").  A small closed universe of
values with decidable equality stands in for arbitrary Python values. -/
inductive Val where
  | vint (n : Int)
  | vstr (s : String)
  | vbool (b : Bool)
  | vints (l : List Int)
  deriving DecidableEq, Repr

/-- Modelled from the spec: terminal state of a single task
(`succeeded | failed | skipped | cancelled`). -/
inductive TaskState where
  | succeeded
  | failed
  | skipped
  | cancelled
  deriving DecidableEq, Repr

/-- Modelled from the spec: terminal state of a whole pipeline run
(`completed | failed | cancelled`). -/
inductive PipeState where
  | completed
  | failed
  | cancelled
  deriving DecidableEq, Repr

/-- Modelled from the spec: backoff kind of a RetryPolicy
(`none | fixed | exponential`). -/
inductive Backoff where
  | noDelay
  | fixed
  | exponential
  deriving DecidableEq, Repr

/-- Modelled from the spec: `RetryPolicy`: max attempts (at least 1),
backoff kind, base delay, optional max delay cap.  Delays are logical
numbers; sleeping is not modelled. -/
structure RetryPolicy where
  max_attempts : Nat := 3
  backoff : Backoff := Backoff.exponential
  base_delay : Nat := 1
  max_delay : Option Nat := Option.none
  deriving DecidableEq, Repr

/-- Modelled from the spec: `CachePolicy`: a time-to-live for cached
results (`@cache(ttl=3600, ...)` in the task documentation). -/
structure CachePolicy where
  ttl : Nat := 3600
  deriving DecidableEq, Repr

/-- Modelled from the spec: `TaskDefinition`: identity (unique name),
the callable unit of work, dependency names, a priority (integer,
1 lowest to 10 highest, default 5), optional retry and cache policies.
The callable receives the resolved outputs of its dependencies (in
dependency order) and either produces one output value or fails with an
error description. -/
structure TaskDef where
  name : String
  depends_on : List String := []
  priority : Int := 5
  retry_policy : Option RetryPolicy := Option.none
  cache_policy : Option CachePolicy := Option.none
  run : List Val → Except String Val

/-- A task graph is the list of registered task definitions, kept in
registration order (registration order is the documented tie-break for
scheduling). -/
abbrev TaskGraph := List TaskDef

/-- The names of all registered tasks, in registration order. -/
def taskNames (g : TaskGraph) : List String :=
  g.map (fun t => t.name)

/-- Look up a registered task by name (first registration wins). -/
def findTask (g : TaskGraph) (n : String) : Option TaskDef :=
  g.find? (fun t => t.name = n)

/-- The declared dependencies of the task registered under `n`;
a name that is not registered has no outgoing dependency edges. -/
def deps (g : TaskGraph) (n : String) : List String :=
  match findTask g n with
  | Option.some t => t.depends_on
  | Option.none => []

/-- The dependency edge relation: `a` depends on `b`
(an edge from `a` to `b` in the dependency graph). -/
def EdgeTo (g : TaskGraph) (a b : String) : Prop :=
  b ∈ deps g a

instance (g : TaskGraph) (a b : String) : Decidable (EdgeTo g a b) :=
  inferInstanceAs (Decidable (b ∈ deps g a))

/-- A cycle in the dependency graph, presented as the list of nodes
visited along the cycle: `x :: l ++ [x]` where consecutive nodes are
joined by dependency edges. -/
def IsCycle (g : TaskGraph) (c : List String) : Prop :=
  ∃ x l, c = x :: (l ++ [x]) ∧ List.Chain (EdgeTo g) x (l ++ [x])

/-- The graph contains a dependency cycle. -/
def HasCycle (g : TaskGraph) : Prop :=
  ∃ c, IsCycle g c

/-- Every dependency name references a registered task. -/
def AllDepsKnown (g : TaskGraph) : Prop :=
  ∀ t ∈ g, ∀ d ∈ t.depends_on, d ∈ taskNames g

/-- Graph validation errors: a dependency cycle (with the offending
cycle), or a dependency name that no registered task carries. -/
inductive GraphError where
  | cycleError (cycle : List String)
  | unknownDependency (taskName : String) (missing : String)
  deriving DecidableEq, Repr

/-- All names mentioned by the graph: registered task names together
with every declared dependency name, deduplicated. -/
def allNames (g : TaskGraph) : List String :=
  (taskNames g ++ (g.map (fun t => t.depends_on)).flatten).dedup

/-- The cycle reported for a back edge to `n` found while the DFS stack
is `stack` (most recent node first): the cycle is walked from the stack,
from `n` forward along dependency edges back to `n`. -/
def reportCycle (n : String) (stack : List String) : List String :=
  n :: ((stack.takeWhile (fun x => x ≠ n)).reverse ++ [n])

/-- Run a visitor over a list of dependency names, threading the set of
finished (black) nodes and stopping at the first error. -/
def depsFold (visit : String → List String → List String → Except (List String) (List String)) :
    List String → List String → List String → Except (List String) (List String)
  | [], _, black => Except.ok black
  | d :: ds, stack, black =>
    match visit d stack black with
    | Except.error c => Except.error c
    | Except.ok black' => depsFold visit ds stack black'

/-- Modelled from the spec: standard depth-first search with three-color
marking (white = unvisited, gray = on `stack`, black = done).  The first
back edge found is reported as a cycle walked from the current DFS
stack.  `fuel` bounds the recursion depth; `validate` supplies enough
fuel that it is never exhausted. -/
def dfsVisit (g : TaskGraph) : Nat → String → List String → List String →
    Except (List String) (List String)
  | 0, _, _, _ => Except.error []
  | fuel + 1, n, stack, black =>
    if n ∈ black then Except.ok black
    else if n ∈ stack then Except.error (reportCycle n stack)
    else
      match depsFold (dfsVisit g fuel) (deps g n) (n :: stack) black with
      | Except.error c => Except.error c
      | Except.ok black' => Except.ok (n :: black')

/-- Fuel that always suffices for `dfsVisit`: one more than the number
of distinct names the graph mentions (the DFS stack can never grow past
that). -/
def fuelBound (g : TaskGraph) : Nat :=
  (allNames g).length + 1

/-- Visit every registered task in registration order, accumulating the
black set, stopping at the first cycle found. -/
def dfsForest (g : TaskGraph) : List String → List String →
    Except (List String) (List String)
  | [], black => Except.ok black
  | n :: ns, black =>
    match dfsVisit g (fuelBound g) n [] black with
    | Except.error c => Except.error c
    | Except.ok black' => dfsForest g ns black'

/-- The first dependency reference that does not resolve to a registered
task, as a pair (task name, missing dependency name). -/
def firstUnknown (g : TaskGraph) : Option (String × String) :=
  g.findSome? (fun t =>
    (t.depends_on.find? (fun d => !((taskNames g).contains d))).map
      (fun d => (t.name, d)))

/-- Modelled from the spec: `validate()` fails with a `CycleError`
naming the offending cycle, or an `UnknownDependencyError` naming the
missing name; it succeeds on every acyclic, fully resolvable graph. -/
def validate (g : TaskGraph) : Except GraphError Unit :=
  match dfsForest g (taskNames g) [] with
  | Except.error c => Except.error (GraphError.cycleError c)
  | Except.ok _ =>
    match firstUnknown g with
    | Option.some td => Except.error (GraphError.unknownDependency td.1 td.2)
    | Option.none => Except.ok ()

/-! ## Topological batches -/

/-- Modelled from the spec: within a batch, simultaneously ready tasks
are ordered by descending priority with registration order as the
stable tie-break. -/
def sortReady (ts : List TaskDef) : List TaskDef :=
  ts.insertionSort (fun t u => u.priority ≤ t.priority)

/-- The tasks that are ready once every name in `done` has been
produced: not yet done themselves, with all dependencies done. -/
def readyTasks (g : TaskGraph) (done : List String) : List TaskDef :=
  g.filter (fun t =>
    !(done.contains t.name) && t.depends_on.all (fun d => done.contains d))

/-- One ready batch, in scheduling order. -/
def readyBatch (g : TaskGraph) (done : List String) : List TaskDef :=
  sortReady (readyTasks g done)

/-- Iterate ready batches, accumulating the names already emitted. -/
def batchesAux (g : TaskGraph) : Nat → List String → List (List TaskDef)
  | 0, _ => []
  | fuel + 1, done =>
    let batch := readyBatch g done
    if batch.isEmpty then []
    else batch :: batchesAux g fuel (done ++ batch.map (fun t => t.name))

/-- Modelled from the spec: `topological_batches()` produces the finite
sequence of ready sets: each batch contains every task whose
dependencies are all in prior batches, ordered within a batch by
descending priority then registration order. -/
def topological_batches (g : TaskGraph) : List (List TaskDef) :=
  batchesAux g g.length []

/-! ## Task execution: retry, cache, per-task results -/

/-- Modelled from the spec: `TaskResult`: task name, terminal state,
output value, error description on failure, count of records processed,
number of retry attempts consumed, whether the result was served from
cache.  Wall-clock duration is not modelled. -/
structure TaskResult where
  task_name : String
  state : TaskState
  output : Option Val := Option.none
  error : Option String := Option.none
  records_processed : Nat := 0
  retries_attempted : Nat := 0
  cache_hit : Bool := false
  deriving DecidableEq, Repr

/-- The record-count hint a task reports: the length of a list output,
zero otherwise. -/
def recordsOf : Val → Nat
  | Val.vints l => l.length
  | _ => 0

/-- An entry of the cache store: key (task name plus the task's resolved
inputs), stored output, and absolute expiry instant. -/
structure CacheEntry where
  key : String × List Val
  value : Val
  expires : Nat
  deriving DecidableEq, Repr

/-- The cache store shared across runs of one Pipeline instance. -/
abbrev CacheStore := List CacheEntry

/-- Look up a cache key; a hit requires the entry to still be within its
time-to-live at instant `now`. -/
def cacheLookup (store : CacheStore) (key : String × List Val) (now : Nat) : Option Val :=
  match store.find? (fun e => e.key = key) with
  | Option.some e => if now < e.expires then Option.some e.value else Option.none
  | Option.none => Option.none

/-- Store a freshly computed output under its key with expiry
`now + ttl`. -/
def cacheInsert (store : CacheStore) (key : String × List Val) (v : Val)
    (expires : Nat) : CacheStore :=
  { key := key, value := v, expires := expires } :: store

/-- Modelled from the spec: the RetryExecutor wraps one invocation with
bounded attempts; `remaining` attempts are left and `used` retries have
been consumed.  Exhausting attempts yields the last error together with
the retry count (attempts after the first). -/
def retryRun (body : List Val → Except String Val) (ins : List Val) :
    Nat → Nat → Nat × Except String Val
  | 0, used => (used, Except.error "no attempts configured")
  | remaining + 1, used =>
    match body ins with
    | Except.ok v => (used, Except.ok v)
    | Except.error e =>
      if remaining = 0 then (used, Except.error e)
      else retryRun body ins remaining (used + 1)

/-- Configuration the scheduler threads through execution. -/
structure EngineConfig where
  fail_fast : Bool := true
  enable_caching : Bool := true
  deriving DecidableEq, Repr

/-- Resolve the declared dependency outputs of a task from the run
outputs mapping, in dependency order. -/
def lookupV : List (String × Val) → String → Option Val
  | [], _ => Option.none
  | (k, v) :: rest, n => if k = n then Option.some v else lookupV rest n

def resolveInputs (outputs : List (String × Val)) : List String → Option (List Val)
  | [] => Option.some []
  | d :: ds =>
    match lookupV outputs d, resolveInputs outputs ds with
    | Option.some v, Option.some vs => Option.some (v :: vs)
    | _, _ => Option.none

/-- What one dispatched task produced: its result, the updated cache
store, and whether the task body was actually invoked (a cache hit
short-circuits the invocation). -/
structure ExecOutcome where
  result : TaskResult
  store : CacheStore
  bodyInvoked : Bool
  deriving Repr

/-- Modelled from the spec: dispatch one ready task.  The scheduler
computes the cache key (task name plus resolved inputs) and queries the
store; a hit within TTL short-circuits execution with the stored
output, `cache_hit = true` and zero retries.  A miss proceeds through
the RetryExecutor; on success the output is stored with expiry
`now + ttl`; failed executions are never cached. -/
def execTask (cfg : EngineConfig) (t : TaskDef) (outputs : List (String × Val))
    (store : CacheStore) (now : Nat) : ExecOutcome :=
  match resolveInputs outputs t.depends_on with
  | Option.none =>
    { result := { task_name := t.name, state := TaskState.failed,
                  error := Option.some "unresolved dependency output" },
      store := store, bodyInvoked := false }
  | Option.some ins =>
    let key := (t.name, ins)
    let cached :=
      if cfg.enable_caching then
        match t.cache_policy with
        | Option.some _ => cacheLookup store key now
        | Option.none => Option.none
      else Option.none
    match cached with
    | Option.some v =>
      { result := { task_name := t.name, state := TaskState.succeeded,
                    output := Option.some v, records_processed := recordsOf v,
                    cache_hit := true },
        store := store, bodyInvoked := false }
    | Option.none =>
      let pol := t.retry_policy.getD { max_attempts := 1 }
      let r := retryRun t.run ins pol.max_attempts 0
      match r.2 with
      | Except.ok v =>
        let store' :=
          if cfg.enable_caching then
            match t.cache_policy with
            | Option.some cp => cacheInsert store key v (now + cp.ttl)
            | Option.none => store
          else store
        { result := { task_name := t.name, state := TaskState.succeeded,
                      output := Option.some v, records_processed := recordsOf v,
                      retries_attempted := r.1 },
          store := store', bodyInvoked := true }
      | Except.error e =>
        { result := { task_name := t.name, state := TaskState.failed,
                      error := Option.some e, retries_attempted := r.1 },
          store := store, bodyInvoked := true }

/-! ## The scheduler: sequential, bounded-parallel and async modes -/

/-- Mutable per-run state: recorded task results, the run-scoped mapping
from completed task name to output, the cache store, and the (ghost)
trace of task names whose body was invoked. -/
structure ExecState where
  results : List TaskResult := []
  outputs : List (String × Val) := []
  store : CacheStore := []
  invoked : List String := []
  deriving Repr

def findResult (results : List TaskResult) (n : String) : Option TaskResult :=
  results.find? (fun r => r.task_name = n)

/-- Some dependency of `t` ended `failed` or `skipped`. -/
def depsFailedOrSkipped (results : List TaskResult) (t : TaskDef) : Bool :=
  t.depends_on.any (fun d =>
    results.any (fun r =>
      r.task_name = d &&
        (r.state = TaskState.failed || r.state = TaskState.skipped)))

/-- Every dependency of `t` ended `succeeded`. -/
def depsAllSucceeded (results : List TaskResult) (t : TaskDef) : Bool :=
  t.depends_on.all (fun d =>
    results.any (fun r => r.task_name = d && r.state = TaskState.succeeded))

def anyFailed (results : List TaskResult) : Bool :=
  results.any (fun r => r.state = TaskState.failed)

/-- Record a non-executed terminal result for `t`. -/
def markResult (st : ExecState) (t : TaskDef) (s : TaskState) : ExecState :=
  { st with results := st.results ++ [{ task_name := t.name, state := s }] }

/-- Record an execution outcome for `t`, extending the outputs mapping
when the task produced an output. -/
def recordOutcome (st : ExecState) (t : TaskDef) (o : ExecOutcome) : ExecState :=
  { results := st.results ++ [o.result],
    outputs := st.outputs ++ (match o.result.output with
      | Option.some v => [(t.name, v)]
      | Option.none => []),
    store := o.store,
    invoked := st.invoked ++ (if o.bodyInvoked then [t.name] else []) }

/-- Run one task under the dependency-state rules: dependents of a
failed or skipped task are `skipped`; a task whose dependencies all
succeeded executes. -/
def dispatch (cfg : EngineConfig) (now : Nat) (snapResults : List TaskResult)
    (snapOutputs : List (String × Val)) (st : ExecState) (t : TaskDef) : ExecState :=
  if depsAllSucceeded snapResults t then
    recordOutcome st t (execTask cfg t snapOutputs st.store now)
  else
    markResult st t TaskState.skipped

/-- Modelled from the spec: after a fail-fast abort, each not-yet-started
task is marked: `skipped` when one of its dependencies failed or was
skipped (the transitive dependents of the failure), `cancelled`
otherwise. -/
def markAborted (st : ExecState) : List TaskDef → ExecState
  | [] => st
  | t :: ts =>
    markAborted
      (if depsFailedOrSkipped st.results t then markResult st t TaskState.skipped
       else markResult st t TaskState.cancelled) ts

/-- Modelled from the spec: Sequential mode iterates tasks one at a time
in the batch order produced by the TaskGraph, completely flattened; a
failure under fail-fast stops all subsequent tasks immediately. -/
def runSeq (cfg : EngineConfig) (now : Nat) : List TaskDef → ExecState → ExecState
  | [], st => st
  | t :: ts, st =>
    if cfg.fail_fast && anyFailed st.results then
      runSeq cfg now ts
        (if depsFailedOrSkipped st.results t then markResult st t TaskState.skipped
         else markResult st t TaskState.cancelled)
    else
      runSeq cfg now ts (dispatch cfg now st.results st.outputs st t)

/-- Dispatch every member of one ready batch concurrently: each member
reads the outputs and results as they were at the batch boundary
(barrier semantics); the cache store is threaded (distinct tasks touch
distinct keys). -/
def execBatch (cfg : EngineConfig) (now : Nat) (snapResults : List TaskResult)
    (snapOutputs : List (String × Val)) : List TaskDef → ExecState → ExecState
  | [], st => st
  | t :: ts, st =>
    execBatch cfg now snapResults snapOutputs ts
      (dispatch cfg now snapResults snapOutputs st t)

/-- Modelled from the spec: bounded-parallel mode dispatches each ready
batch concurrently behind a barrier: a failure aborts dispatch at the
next batch boundary, in-flight batch members run to completion (the
documented implementation choice); the concurrency bound
`max_parallel_tasks` limits simultaneous workers and affects only
timing, never result content, so it does not appear here. -/
def runPar (cfg : EngineConfig) (now : Nat) : List (List TaskDef) → ExecState → ExecState
  | [], st => st
  | b :: bs, st =>
    if cfg.fail_fast && anyFailed st.results then
      runPar cfg now bs (markAborted st b)
    else
      runPar cfg now bs (execBatch cfg now st.results st.outputs b st)

/-- The registered tasks that have no recorded result yet, in
registration order. -/
def remainingTasks (g : TaskGraph) (st : ExecState) : List TaskDef :=
  g.filter (fun t => !(st.results.any (fun r => r.task_name = t.name)))

/-- Modelled from the spec: concurrent/async mode uses continuous
dispatch: a task becomes eligible the moment all of its dependencies
have reached a terminal state, with no bound on in-flight tasks; on a
fail-fast abort every task not yet started is marked. -/
def runAsync (cfg : EngineConfig) (now : Nat) (g : TaskGraph) :
    Nat → ExecState → ExecState
  | 0, st => st
  | fuel + 1, st =>
    if cfg.fail_fast && anyFailed st.results then
      markAborted st (remainingTasks g st)
    else
      let ready := readyBatch g (st.results.map (fun r => r.task_name))
      if ready.isEmpty then st
      else runAsync cfg now g fuel (execBatch cfg now st.results st.outputs ready st)

/-! ## The Pipeline facade -/

inductive ExecutionMode where
  | sequential
  | parallel
  | async
  deriving DecidableEq, Repr

/-- Modelled from the spec: the Pipeline configuration relevant to
result content. -/
structure PipelineConfig where
  name : String
  execution_mode : ExecutionMode := ExecutionMode.sequential
  max_parallel_tasks : Nat := 4
  fail_fast : Bool := true
  enable_caching : Bool := true
  deriving DecidableEq, Repr

/-- Modelled from the spec: `PipelineResult`: pipeline name, terminal
state, results keyed by task name (kept in completion order), aggregate
records count, whether the run was a dry run, and the top-level error if
the run itself failed.  Run identifiers, durations and timestamps are
not modelled. -/
structure PipelineResult where
  pipeline_name : String
  state : PipeState
  task_results : List TaskResult := []
  records_count : Nat := 0
  dry_run : Bool := false
  error : Option String := Option.none
  deriving DecidableEq, Repr

def PipelineResult.succeeded (r : PipelineResult) : Bool :=
  r.state = PipeState.completed

def PipelineResult.failed (r : PipelineResult) : Bool :=
  r.state = PipeState.failed

def PipelineResult.get_failed_tasks (r : PipelineResult) : List TaskResult :=
  r.task_results.filter (fun tr => tr.state = TaskState.failed)

def describeError : GraphError → String
  | GraphError.cycleError c => "CycleError: " ++ String.intercalate " -> " c
  | GraphError.unknownDependency t d =>
      "UnknownDependencyError: " ++ t ++ " depends on unknown " ++ d

/-- Aggregate per-task results into the final report: the run completed
iff no task failed; `records_count` sums each task's reported count. -/
def mkResult (cfg : PipelineConfig) (results : List TaskResult) : PipelineResult :=
  { pipeline_name := cfg.name,
    state := if anyFailed results then PipeState.failed else PipeState.completed,
    task_results := results,
    records_count := (results.map (fun r => r.records_processed)).sum }

/-- Everything one `run` call produces: the result report, the final
run-scoped outputs mapping, the cache store to carry to the next run,
and the trace of invoked task bodies. -/
structure RunOutput where
  result : PipelineResult
  outputs : List (String × Val)
  store : CacheStore
  invoked : List String
  deriving Repr

/-- Modelled from the spec: `run(inputs?, dry_run=false)`.  Validation
failures short-circuit before any task result exists; a dry run performs
only validation and returns with `dry_run = true`, no task executions
and the context outputs untouched; otherwise the scheduler drives the
chosen execution mode and results are aggregated. -/
def pipelineRun (cfg : PipelineConfig) (g : TaskGraph) (inputs : List (String × Val))
    (store : CacheStore) (now : Nat) (dry_run : Bool) : RunOutput :=
  match validate g with
  | Except.error e =>
    { result := { pipeline_name := cfg.name, state := PipeState.failed,
                  error := Option.some (describeError e), dry_run := dry_run },
      outputs := inputs, store := store, invoked := [] }
  | Except.ok _ =>
    if dry_run then
      { result := { pipeline_name := cfg.name, state := PipeState.completed,
                    dry_run := true },
        outputs := inputs, store := store, invoked := [] }
    else
      let ecfg : EngineConfig :=
        { fail_fast := cfg.fail_fast, enable_caching := cfg.enable_caching }
      let st0 : ExecState := { outputs := inputs, store := store }
      let st :=
        match cfg.execution_mode with
        | ExecutionMode.sequential => runSeq ecfg now (topological_batches g).flatten st0
        | ExecutionMode.parallel => runPar ecfg now (topological_batches g) st0
        | ExecutionMode.async => runAsync ecfg now g g.length st0
      { result := mkResult cfg st.results, outputs := st.outputs,
        store := st.store, invoked := st.invoked }

/-- `summary()`: a plain key/value snapshot of the result suitable for
logging; built from the result report alone, so no secret can occur in
it. -/
def PipelineResult.summary (r : PipelineResult) : List (String × Val) :=
  [("pipeline_name", Val.vstr r.pipeline_name),
   ("state", Val.vbool (r.state = PipeState.completed)),
   ("total_tasks", Val.vint r.task_results.length),
   ("tasks_succeeded",
     Val.vint (r.task_results.filter (fun tr => tr.state = TaskState.succeeded)).length),
   ("tasks_failed", Val.vint r.get_failed_tasks.length),
   ("records_count", Val.vint r.records_count),
   ("dry_run", Val.vbool r.dry_run)]

/-! ## Context -/

/-- Modelled from the spec: a Context carries an environment tag, an
ordered mapping of configuration values, and a separate mapping of
secret values that is never included in any serialized export. -/
structure Context where
  env : String := "development"
  data : List (String × Val) := []
  secrets : List (String × String) := []
  deriving DecidableEq, Repr

def Context.is_production (c : Context) : Bool := c.env = "production"

def Context.is_development (c : Context) : Bool := c.env = "development"

def Context.get (c : Context) (k : String) : Option Val := lookupV c.data k

def Context.set (c : Context) (k : String) (v : Val) : Context :=
  { c with data := c.data ++ [(k, v)] }

def lookupS : List (String × String) → String → Option String
  | [], _ => Option.none
  | (k, v) :: rest, n => if k = n then Option.some v else lookupS rest n

def Context.set_secret (c : Context) (k v : String) : Context :=
  { c with secrets := c.secrets ++ [(k, v)] }

/-- `get_secret` checks the secret mapping first, then the external
environment lookup collaborator. -/
def Context.get_secret (c : Context) (envLookup : String → Option String)
    (k : String) : Option String :=
  match lookupS c.secrets k with
  | Option.some v => Option.some v
  | Option.none => envLookup k

/-- Modelled from the spec: `to_dict` exports the context for logging or
debugging; secrets are excluded by construction. -/
def Context.to_dict (c : Context) : List (String × Val) :=
  ("env", Val.vstr c.env) :: c.data

/-! ## Task registration -/

/-- The parameters accepted by the task decorator. -/
structure TaskSpec where
  name : String
  depends_on : List String := []
  priority : Option Int := Option.none
  retry_policy : Option RetryPolicy := Option.none
  cache_policy : Option CachePolicy := Option.none
  run : List Val → Except String Val

inductive RegisterError where
  | duplicateTask (name : String)
  | validationError (msg : String)
  deriving DecidableEq, Repr

/-- Modelled from the spec: registering a task fails with
`DuplicateTaskError` if the name is already present; a task registered
without an explicit priority gets priority 5; priority values range
from 1 (lowest) to 10 (highest). -/
def addTask (g : TaskGraph) (s : TaskSpec) : Except RegisterError TaskGraph :=
  if (taskNames g).contains s.name then
    Except.error (RegisterError.duplicateTask s.name)
  else
    let p := s.priority.getD 5
    if 1 ≤ p ∧ p ≤ 10 then
      Except.ok (g ++ [{ name := s.name, depends_on := s.depends_on, priority := p,
                         retry_policy := s.retry_policy, cache_policy := s.cache_policy,
                         run := s.run }])
    else Except.error (RegisterError.validationError "priority out of range")

def buildAux : TaskGraph → List TaskSpec → Except RegisterError TaskGraph
  | g, [] => Except.ok g
  | g, s :: ss =>
    match addTask g s with
    | Except.error e => Except.error e
    | Except.ok g' => buildAux g' ss

/-- Build a graph by registering the given specs in order. -/
def buildGraph (ss : List TaskSpec) : Except RegisterError TaskGraph :=
  buildAux [] ss

/-! ## Concrete fixtures used by witnesses and scenario claims -/

/-- A task body that always succeeds with `v`. -/
def okBody (v : Val) : List Val → Except String Val := fun _ => Except.ok v

/-- A task body that always fails with error `e`. -/
def failBody (e : String) : List Val → Except String Val := fun _ => Except.error e

def cycTaskA : TaskDef := { name := "A", depends_on := ["B"], run := okBody (Val.vint 1) }

def cycTaskB : TaskDef := { name := "B", depends_on := ["A"], run := okBody (Val.vint 2) }

/-- Two tasks depending on each other: the canonical cycle scenario. -/
def cycGraph : TaskGraph := [cycTaskA, cycTaskB]

def defaultCfg : PipelineConfig := { name := "p" }

/-! ## C8: a dry run only validates -/

/-- C8: for every `run(dry_run=true)`, only validation is performed: the
returned PipelineResult has `dry_run = true` and no task executions, the
run-scoped outputs mapping is unchanged, and no task body is invoked. -/
theorem dry_run_pure (cfg : PipelineConfig) (g : TaskGraph)
    (inputs : List (String × Val)) (store : CacheStore) (now : Nat) :
    (pipelineRun cfg g inputs store now true).result.dry_run = true ∧
    (pipelineRun cfg g inputs store now true).result.task_results = [] ∧
    (pipelineRun cfg g inputs store now true).outputs = inputs ∧
    (pipelineRun cfg g inputs store now true).invoked = [] := by
  unfold pipelineRun
  cases validate g <;> simp

/-! ## C9: validation failures short-circuit the run -/

/-- C9: whenever validation fails, `run` returns a PipelineResult in
state `failed` with the validation error recorded and `task_results`
empty — no per-task result exists. -/
theorem validation_failure_short_circuits (cfg : PipelineConfig) (g : TaskGraph)
    (inputs : List (String × Val)) (store : CacheStore) (now : Nat) (e : GraphError)
    (h : validate g = Except.error e) :
    (pipelineRun cfg g inputs store now false).result.state = PipeState.failed ∧
    (pipelineRun cfg g inputs store now false).result.error
      = Option.some (describeError e) ∧
    (pipelineRun cfg g inputs store now false).result.task_results = [] := by
  unfold pipelineRun
  rw [h]
  exact ⟨rfl, rfl, rfl⟩

/-- Witness for C9 at the concrete two-task cycle. -/
theorem validation_failure_short_circuits_witness :
    validate cycGraph = Except.error (GraphError.cycleError ["A", "B", "A"]) ∧
    ((pipelineRun defaultCfg cycGraph [] [] 0 false).result.state = PipeState.failed ∧
     (pipelineRun defaultCfg cycGraph [] [] 0 false).result.error
       = Option.some (describeError (GraphError.cycleError ["A", "B", "A"])) ∧
     (pipelineRun defaultCfg cycGraph [] [] 0 false).result.task_results = []) :=
  ⟨rfl, validation_failure_short_circuits defaultCfg cycGraph [] [] 0
    (GraphError.cycleError ["A", "B", "A"]) rfl⟩

/-! ## C7: secrets never reach a serialized export -/

/-- C7: `to_dict` omits every value stored in the secret mapping: two
contexts that differ only in their secret values produce identical
serialized exports.  (Pipeline summaries are built from the result
report alone — see `PipelineResult.summary` — so no secret can occur in
them by construction.) -/
theorem secrets_not_exported (c₁ c₂ : Context)
    (henv : c₁.env = c₂.env) (hdata : c₁.data = c₂.data) :
    Context.to_dict c₁ = Context.to_dict c₂ := by
  unfold Context.to_dict
  rw [henv, hdata]

/-- Witness for C7: same environment and data, different secret values,
identical exports. -/
theorem secrets_not_exported_witness :
    Context.to_dict { env := "production", data := [("batch_size", Val.vint 1000)],
                      secrets := [("API_KEY", "alpha")] }
      = Context.to_dict { env := "production", data := [("batch_size", Val.vint 1000)],
                          secrets := [("API_KEY", "beta")] } :=
  secrets_not_exported _ _ rfl rfl

/-! ## C10: priorities are 1..10 with default 5 -/

theorem addTask_ok (g₀ : TaskGraph) (s : TaskSpec) (g₁ : TaskGraph)
    (h : addTask g₀ s = Except.ok g₁) :
    g₁ = g₀ ++ [{ name := s.name, depends_on := s.depends_on,
                  priority := s.priority.getD 5, retry_policy := s.retry_policy,
                  cache_policy := s.cache_policy, run := s.run }] ∧
    1 ≤ s.priority.getD 5 ∧ s.priority.getD 5 ≤ 10 := by
  unfold addTask at h
  split at h
  · cases h
  · dsimp only at h
    split at h
    · rename_i hp
      cases h
      exact ⟨rfl, hp⟩
    · cases h

theorem buildAux_ok (ss : List TaskSpec) (g₀ g : TaskGraph)
    (h : buildAux g₀ ss = Except.ok g) :
    (∀ t ∈ g₀, t ∈ g) ∧
    (∀ t ∈ g, t ∈ g₀ ∨ (1 ≤ t.priority ∧ t.priority ≤ 10)) ∧
    (∀ s ∈ ss, ∃ t ∈ g, t.name = s.name ∧ t.priority = s.priority.getD 5) := by
  induction ss generalizing g₀ with
  | nil =>
    unfold buildAux at h
    cases h
    exact ⟨fun t ht => ht, fun t ht => Or.inl ht, by simp⟩
  | cons s ss ih =>
    unfold buildAux at h
    cases hadd : addTask g₀ s with
    | error e => rw [hadd] at h; cases h
    | ok g₁ =>
      rw [hadd] at h
      obtain ⟨rfl, hp⟩ := addTask_ok g₀ s g₁ hadd
      obtain ⟨mono, inv, found⟩ := ih _ h
      refine ⟨fun t ht => mono t (by simp [ht]), fun t ht => ?_, ?_⟩
      · rcases inv t ht with hin | hgood
        · rcases List.mem_append.mp hin with hin | hin
          · exact Or.inl hin
          · simp only [List.mem_singleton] at hin
            subst hin
            exact Or.inr hp
        · exact Or.inr hgood
      · intro s' hs'
        rcases List.mem_cons.mp hs' with rfl | hs'
        · refine ⟨{ name := s'.name, depends_on := s'.depends_on,
                    priority := s'.priority.getD 5, retry_policy := s'.retry_policy,
                    cache_policy := s'.cache_policy, run := s'.run },
                  mono _ (by simp), rfl, rfl⟩
        · exact found s' hs'

/-- C10: every task in a successfully built graph has priority between
1 (lowest) and 10 (highest) inclusive, and a task registered without an
explicit priority has priority 5. -/
theorem priority_invariant (ss : List TaskSpec) (g : TaskGraph)
    (h : buildGraph ss = Except.ok g) :
    (∀ t ∈ g, 1 ≤ t.priority ∧ t.priority ≤ 10) ∧
    (∀ s ∈ ss, s.priority = Option.none →
      ∃ t ∈ g, t.name = s.name ∧ t.priority = 5) := by
  obtain ⟨_, inv, found⟩ := buildAux_ok ss [] g h
  refine ⟨fun t ht => ?_, fun s hs hnone => ?_⟩
  · rcases inv t ht with hin | hgood
    · simp at hin
    · exact hgood
  · obtain ⟨t, htg, hname, hpr⟩ := found s hs
    exact ⟨t, htg, hname, by simpa [hnone] using hpr⟩

def wSpecA : TaskSpec := { name := "critical", priority := Option.some 10,
                           run := okBody (Val.vint 1) }

def wSpecB : TaskSpec := { name := "background", run := okBody (Val.vint 2) }

def wGraph : TaskGraph :=
  [ { name := "critical", priority := 10, run := okBody (Val.vint 1) },
    { name := "background", priority := 5, run := okBody (Val.vint 2) } ]

/-- Witness for C10 at a concrete registration sequence. -/
theorem priority_invariant_witness :
    buildGraph [wSpecA, wSpecB] = Except.ok wGraph ∧
    ((∀ t ∈ wGraph, 1 ≤ t.priority ∧ t.priority ≤ 10) ∧
     (∀ s ∈ [wSpecA, wSpecB], s.priority = Option.none →
       ∃ t ∈ wGraph, t.name = s.name ∧ t.priority = 5)) :=
  ⟨rfl, priority_invariant [wSpecA, wSpecB] wGraph rfl⟩

/-! ## C5: retry exhaustion -/

theorem retryRun_fail (body : List Val → Except String Val) (ins : List Val)
    (e : String) (hb : body ins = Except.error e) :
    ∀ k u, retryRun body ins (k + 1) u = (u + k, Except.error e) := by
  intro k
  induction k with
  | zero => intro u; unfold retryRun; rw [hb]; simp
  | succ k ih =>
    intro u
    unfold retryRun
    rw [hb]
    simp only [Nat.succ_ne_zero, if_false]
    rw [ih (u + 1)]
    have harith : u + 1 + k = u + (k + 1) := by omega
    rw [harith]

/-- C5: a task whose RetryPolicy has `max_attempts = 3` and whose body
fails on every attempt ends in terminal state `failed`, carries the last
error, and records `retries_attempted = 2` (two retries after the
initial attempt). -/
theorem retry_exhaustion (cfg : EngineConfig) (t : TaskDef)
    (outputs : List (String × Val)) (store : CacheStore) (now : Nat)
    (ins : List Val) (e : String) (pol : RetryPolicy)
    (hres : resolveInputs outputs t.depends_on = Option.some ins)
    (hb : t.run ins = Except.error e)
    (hpol : t.retry_policy = Option.some pol)
    (hmax : pol.max_attempts = 3)
    (hmiss : cacheLookup store (t.name, ins) now = Option.none) :
    execTask cfg t outputs store now
      = { result := { task_name := t.name, state := TaskState.failed,
                      error := Option.some e, retries_attempted := 2 },
          store := store, bodyInvoked := true } := by
  unfold execTask
  rw [hres]
  have hc : (if cfg.enable_caching then
      match t.cache_policy with
      | Option.some _ => cacheLookup store (t.name, ins) now
      | Option.none => Option.none
    else Option.none) = Option.none := by
    cases cfg.enable_caching <;> cases t.cache_policy <;> simp [hmiss]
  simp only [hc]
  rw [hpol]
  simp only [Option.getD_some, hmax]
  rw [show (3 : Nat) = 2 + 1 from rfl, retryRun_fail t.run ins e hb 2 0]

def retryTask : TaskDef :=
  { name := "flaky_task", retry_policy := Option.some { max_attempts := 3 },
    run := failBody "always" }

/-- Witness for C5 at a concrete always-failing task. -/
theorem retry_exhaustion_witness :
    execTask { } retryTask [] [] 0
      = { result := { task_name := "flaky_task", state := TaskState.failed,
                      error := Option.some "always", retries_attempted := 2 },
          store := [], bodyInvoked := true } :=
  retry_exhaustion { } retryTask [] [] 0 [] "always" { max_attempts := 3 }
    rfl rfl rfl rfl rfl

/-! ## C3: fail-fast versus continue-on-failure -/

/-- The graph of the fail-fast scenario: `B` depends on `A`, `C` is
independent; bodies are parameters. -/
def scenarioGraph (ra rb rc : List Val → Except String Val) : TaskGraph :=
  [ { name := "A", run := ra },
    { name := "B", depends_on := ["A"], run := rb },
    { name := "C", run := rc } ]

theorem scenario_valid (ra rb rc : List Val → Except String Val) :
    validate (scenarioGraph ra rb rc) = Except.ok () := rfl

theorem scenario_flat (ra rb rc : List Val → Except String Val) :
    (topological_batches (scenarioGraph ra rb rc)).flatten =
      [{ name := "A", run := ra }, { name := "C", run := rc },
       { name := "B", depends_on := ["A"], run := rb }] := rfl

/-- C3: with tasks `A` (failing), `B` depending on `A` and independent
`C`, running sequentially (the default mode): under `fail_fast = true`,
`B` ends `skipped` and `C` ends `cancelled` (not run); under
`fail_fast = false`, `C` runs to completion with its output and `B` ends
`skipped`. -/
theorem fail_fast_scenario (ra rb rc : List Val → Except String Val)
    (ea : String) (vc : Val)
    (ha : ra [] = Except.error ea) (hc : rc [] = Except.ok vc) :
    (findResult (pipelineRun { name := "p", fail_fast := true }
        (scenarioGraph ra rb rc) [] [] 0 false).result.task_results "B"
      = Option.some { task_name := "B", state := TaskState.skipped } ∧
     findResult (pipelineRun { name := "p", fail_fast := true }
        (scenarioGraph ra rb rc) [] [] 0 false).result.task_results "C"
      = Option.some { task_name := "C", state := TaskState.cancelled }) ∧
    (findResult (pipelineRun { name := "p", fail_fast := false }
        (scenarioGraph ra rb rc) [] [] 0 false).result.task_results "C"
      = Option.some { task_name := "C", state := TaskState.succeeded,
                      output := Option.some vc,
                      records_processed := recordsOf vc } ∧
     findResult (pipelineRun { name := "p", fail_fast := false }
        (scenarioGraph ra rb rc) [] [] 0 false).result.task_results "B"
      = Option.some { task_name := "B", state := TaskState.skipped }) := by
  refine ⟨⟨?_, ?_⟩, ?_, ?_⟩ <;>
  · simp only [pipelineRun, scenario_valid, scenario_flat]
    simp only [runSeq, dispatch, execTask, resolveInputs, retryRun, markResult,
      recordOutcome, depsAllSucceeded, depsFailedOrSkipped, anyFailed, mkResult,
      findResult, lookupV, cacheLookup, ha, hc]
    simp

/-- Witness for C3 with concrete bodies. -/
theorem fail_fast_scenario_witness :
    (findResult (pipelineRun { name := "p", fail_fast := true }
        (scenarioGraph (failBody "boom") (okBody (Val.vint 2)) (okBody (Val.vint 3)))
        [] [] 0 false).result.task_results "B"
      = Option.some { task_name := "B", state := TaskState.skipped } ∧
     findResult (pipelineRun { name := "p", fail_fast := true }
        (scenarioGraph (failBody "boom") (okBody (Val.vint 2)) (okBody (Val.vint 3)))
        [] [] 0 false).result.task_results "C"
      = Option.some { task_name := "C", state := TaskState.cancelled }) ∧
    (findResult (pipelineRun { name := "p", fail_fast := false }
        (scenarioGraph (failBody "boom") (okBody (Val.vint 2)) (okBody (Val.vint 3)))
        [] [] 0 false).result.task_results "C"
      = Option.some { task_name := "C", state := TaskState.succeeded,
                      output := Option.some (Val.vint 3),
                      records_processed := recordsOf (Val.vint 3) } ∧
     findResult (pipelineRun { name := "p", fail_fast := false }
        (scenarioGraph (failBody "boom") (okBody (Val.vint 2)) (okBody (Val.vint 3)))
        [] [] 0 false).result.task_results "B"
      = Option.some { task_name := "B", state := TaskState.skipped }) :=
  fail_fast_scenario (failBody "boom") (okBody (Val.vint 2)) (okBody (Val.vint 3))
    "boom" (Val.vint 3) rfl rfl

/-! ## C2 development: correctness of cycle detection -/

theorem findTask_mem (g : TaskGraph) (n : String) (t : TaskDef)
    (h : findTask g n = Option.some t) : t ∈ g ∧ t.name = n := by
  unfold findTask at h
  refine ⟨List.mem_of_find?_eq_some h, ?_⟩
  have := List.find?_some h
  simpa using this

theorem edge_src_registered (g : TaskGraph) (a b : String) (h : EdgeTo g a b) :
    a ∈ taskNames g := by
  unfold EdgeTo deps at h
  cases hf : findTask g a with
  | none => rw [hf] at h; cases h
  | some t =>
    obtain ⟨htg, hname⟩ := findTask_mem g a t hf
    exact hname ▸ List.mem_map_of_mem (fun u => u.name) htg

theorem taskNames_subset_allNames (g : TaskGraph) (n : String)
    (h : n ∈ taskNames g) : n ∈ allNames g := by
  unfold allNames
  rw [List.mem_dedup]
  exact List.mem_append.mpr (Or.inl h)

theorem deps_subset_allNames (g : TaskGraph) (n d : String) (h : d ∈ deps g n) :
    d ∈ allNames g := by
  unfold deps at h
  cases hf : findTask g n with
  | none => rw [hf] at h; cases h
  | some t =>
    rw [hf] at h
    obtain ⟨htg, _⟩ := findTask_mem g n t hf
    unfold allNames
    rw [List.mem_dedup]
    refine List.mem_append.mpr (Or.inr ?_)
    exact List.mem_flatten.mpr ⟨t.depends_on, List.mem_map_of_mem (fun u => u.depends_on) htg, h⟩

/-- The invariant of the DFS stack: the current node is a dependency of
the stack head, and each stack entry is a dependency of the one below
it. -/
def stackOk (g : TaskGraph) : String → List String → Prop
  | _, [] => True
  | m, h :: t => EdgeTo g h m ∧ stackOk g h t

theorem stackOk_chain (g : TaskGraph) (m : String) :
    ∀ (s : List String) (c : String), stackOk g c s → m ∈ s →
      List.Chain (EdgeTo g) m ((s.takeWhile (fun x => x ≠ m)).reverse ++ [c]) := by
  intro s
  induction s with
  | nil => intro c _ hm; cases hm
  | cons h t ih =>
    intro c hso hm
    obtain ⟨hedge, hso'⟩ := hso
    by_cases hhm : h = m
    · subst hhm
      have htw : (h :: t).takeWhile (fun x => x ≠ h) = [] := by
        simp [List.takeWhile_cons]
      rw [htw]
      simpa [List.chain_singleton] using hedge
    · have hmt : m ∈ t := by
        rcases List.mem_cons.mp hm with h1 | h1
        · exact absurd h1.symm hhm
        · exact h1
      have hih := ih h hso' hmt
      have htw : (h :: t).takeWhile (fun x => x ≠ m)
          = h :: t.takeWhile (fun x => x ≠ m) := by
        simp [List.takeWhile_cons, hhm]
      rw [htw]
      have hsplit : (h :: t.takeWhile (fun x => x ≠ m)).reverse ++ [c]
          = (t.takeWhile (fun x => x ≠ m)).reverse ++ (h :: [c]) := by
        simp
      rw [hsplit]
      exact List.chain_split.mpr ⟨hih, (List.chain_singleton).mpr hedge⟩

theorem reportCycle_isCycle (g : TaskGraph) (n : String) (stack : List String)
    (hok : stackOk g n stack) (hmem : n ∈ stack) :
    IsCycle g (reportCycle n stack) :=
  ⟨n, (stack.takeWhile (fun x => x ≠ n)).reverse, rfl,
    stackOk_chain g n stack n hok hmem⟩

theorem depsFold_error
    (visit : String → List String → List String → Except (List String) (List String)) :
    ∀ (ds : List String) (stack black c : List String),
      depsFold visit ds stack black = Except.error c →
      ∃ d ∈ ds, ∃ b, visit d stack b = Except.error c := by
  intro ds
  induction ds with
  | nil => intro stack black c h; cases h
  | cons d ds ih =>
    intro stack black c h
    unfold depsFold at h
    cases hv : visit d stack black with
    | error c' =>
      rw [hv] at h
      cases h
      exact ⟨d, List.mem_cons_self d ds, black, hv⟩
    | ok b' =>
      rw [hv] at h
      obtain ⟨d', hd', b, hb⟩ := ih stack b' c h
      exact ⟨d', List.mem_cons_of_mem d hd', b, hb⟩

theorem nodup_subset_length_le (s u : List String) (hnd : s.Nodup) (hsub : s ⊆ u) :
    s.length ≤ u.length := by
  calc s.length = s.toFinset.card := (List.toFinset_card_of_nodup hnd).symm
    _ ≤ u.toFinset.card := Finset.card_le_card (by
        intro x hx
        simp only [List.mem_toFinset] at hx ⊢
        exact hsub hx)
    _ ≤ u.length := List.toFinset_card_le u

theorem dfsVisit_error_sound (g : TaskGraph) :
    ∀ (fuel : Nat) (n : String) (stack black c : List String),
      dfsVisit g fuel n stack black = Except.error c →
      n ∈ allNames g → stack ⊆ allNames g → stack.Nodup →
      (allNames g).length < fuel + stack.length →
      stackOk g n stack →
      IsCycle g c := by
  intro fuel
  induction fuel with
  | zero =>
    intro n stack black c _ _ hs hnd hlen _
    exact absurd (nodup_subset_length_le stack (allNames g) hnd hs) (by omega)
  | succ fuel ih =>
    intro n stack black c h hn hs hnd hlen hso
    unfold dfsVisit at h
    split at h
    · cases h
    · split at h
      · rename_i hnb hnstk
        cases h
        exact reportCycle_isCycle g n stack hso hnstk
      · rename_i hnb hnstk
        cases hf : depsFold (dfsVisit g fuel) (deps g n) (n :: stack) black with
        | error c' =>
          rw [hf] at h
          cases h
          obtain ⟨d, hd, b, hdv⟩ := depsFold_error _ _ _ _ _ hf
          refine ih d (n :: stack) b c hdv (deps_subset_allNames g n d hd) ?_ ?_ ?_ ?_
          · intro x hx
            rcases List.mem_cons.mp hx with rfl | hx
            · exact hn
            · exact hs hx
          · exact List.nodup_cons.mpr ⟨hnstk, hnd⟩
          · simp only [List.length_cons]
            omega
          · exact ⟨hd, hso⟩
        | ok b' =>
          rw [hf] at h
          cases h

theorem dfsForest_error_sound (g : TaskGraph) :
    ∀ (ns black c : List String), (∀ n ∈ ns, n ∈ taskNames g) →
      dfsForest g ns black = Except.error c → IsCycle g c := by
  intro ns
  induction ns with
  | nil => intro black c _ h; cases h
  | cons n ns ih =>
    intro black c hns h
    unfold dfsForest at h
    cases hv : dfsVisit g (fuelBound g) n [] black with
    | error c' =>
      rw [hv] at h
      cases h
      refine dfsVisit_error_sound g (fuelBound g) n [] black c hv ?_ ?_ ?_ ?_ ?_
      · exact taskNames_subset_allNames g n (hns n (List.mem_cons_self n ns))
      · intro x hx; cases hx
      · exact List.nodup_nil
      · unfold fuelBound; simp
      · trivial
    | ok b' =>
      rw [hv] at h
      exact ih b' c (fun m hm => hns m (List.mem_cons_of_mem n hm)) h

/-- A black list produced by a completed DFS is topologically ranked:
each entry's dependencies occur strictly later in the list (they were
blackened earlier). -/
def Ranked (g : TaskGraph) : List String → Prop
  | [] => True
  | n :: l => (∀ d ∈ deps g n, d ∈ l) ∧ Ranked g l

theorem depsFold_ok (g : TaskGraph)
    (visit : String → List String → List String → Except (List String) (List String))
    (stack : List String) :
    ∀ (ds black black' : List String),
      (∀ d ∈ ds, ∀ b b', visit d stack b = Except.ok b' → Ranked g b → b.Nodup →
        Ranked g b' ∧ b'.Nodup ∧ (∀ x ∈ b, x ∈ b') ∧ d ∈ b' ∧
          (∀ x ∈ b', x ∈ b ∨ x ∉ stack)) →
      depsFold visit ds stack black = Except.ok black' →
      Ranked g black → black.Nodup →
      Ranked g black' ∧ black'.Nodup ∧ (∀ x ∈ black, x ∈ black') ∧
        (∀ d ∈ ds, d ∈ black') ∧ (∀ x ∈ black', x ∈ black ∨ x ∉ stack) := by
  intro ds
  induction ds with
  | nil =>
    intro black black' _ h hr hnd
    cases h
    exact ⟨hr, hnd, fun x hx => hx, by simp, fun x hx => Or.inl hx⟩
  | cons d ds ih =>
    intro black black' H h hr hnd
    unfold depsFold at h
    cases hv : visit d stack black with
    | error c => rw [hv] at h; cases h
    | ok b₁ =>
      rw [hv] at h
      obtain ⟨hr₁, hnd₁, hsub₁, hd₁, hst₁⟩ :=
        H d (List.mem_cons_self d ds) black b₁ hv hr hnd
      obtain ⟨hr₂, hnd₂, hsub₂, hds₂, hst₂⟩ :=
        ih b₁ black' (fun d' hd' => H d' (List.mem_cons_of_mem d hd')) h hr₁ hnd₁
      refine ⟨hr₂, hnd₂, fun x hx => hsub₂ x (hsub₁ x hx), ?_, ?_⟩
      · intro d' hd'
        rcases List.mem_cons.mp hd' with rfl | hd'
        · exact hsub₂ d' hd₁
        · exact hds₂ d' hd'
      · intro x hx
        rcases hst₂ x hx with hx₁ | hxs
        · exact hst₁ x hx₁
        · exact Or.inr hxs

theorem dfsVisit_ok (g : TaskGraph) :
    ∀ (fuel : Nat) (n : String) (stack black black' : List String),
      dfsVisit g fuel n stack black = Except.ok black' →
      Ranked g black → black.Nodup →
      Ranked g black' ∧ black'.Nodup ∧ (∀ x ∈ black, x ∈ black') ∧ n ∈ black' ∧
        (∀ x ∈ black', x ∈ black ∨ x ∉ stack) := by
  intro fuel
  induction fuel with
  | zero => intro n stack black black' h; cases h
  | succ fuel ih =>
    intro n stack black black' h hr hnd
    unfold dfsVisit at h
    split at h
    · rename_i hnb
      cases h
      exact ⟨hr, hnd, fun x hx => hx, hnb, fun x hx => Or.inl hx⟩
    · split at h
      · cases h
      · rename_i hnb hnstk
        cases hf : depsFold (dfsVisit g fuel) (deps g n) (n :: stack) black with
        | error c => rw [hf] at h; cases h
        | ok b₁ =>
          rw [hf] at h
          cases h
          obtain ⟨hr₁, hnd₁, hsub₁, hdep₁, hst₁⟩ :=
            depsFold_ok g (dfsVisit g fuel) (n :: stack) (deps g n) black b₁
              (fun d _ b b' hv hrb hndb => ih d (n :: stack) b b' hv hrb hndb) hf hr hnd
          have hn₁ : n ∉ b₁ := by
            intro hmem
            rcases hst₁ n hmem with h1 | h1
            · exact hnb h1
            · exact h1 (List.mem_cons_self n stack)
          refine ⟨⟨hdep₁, hr₁⟩, List.nodup_cons.mpr ⟨hn₁, hnd₁⟩,
            fun x hx => List.mem_cons_of_mem n (hsub₁ x hx),
            List.mem_cons_self n b₁, ?_⟩
          intro x hx
          rcases List.mem_cons.mp hx with rfl | hx
          · exact Or.inr hnstk
          · rcases hst₁ x hx with h1 | h1
            · exact Or.inl h1
            · exact Or.inr (fun hxs => h1 (List.mem_cons_of_mem n hxs))

theorem dfsForest_ok (g : TaskGraph) :
    ∀ (ns black black' : List String),
      dfsForest g ns black = Except.ok black' → Ranked g black → black.Nodup →
      Ranked g black' ∧ black'.Nodup ∧ (∀ x ∈ black, x ∈ black') ∧
        ∀ n ∈ ns, n ∈ black' := by
  intro ns
  induction ns with
  | nil =>
    intro black black' h hr hnd
    cases h
    exact ⟨hr, hnd, fun x hx => hx, by simp⟩
  | cons n ns ih =>
    intro black black' h hr hnd
    unfold dfsForest at h
    cases hv : dfsVisit g (fuelBound g) n [] black with
    | error c => rw [hv] at h; cases h
    | ok b₁ =>
      rw [hv] at h
      obtain ⟨hr₁, hnd₁, hsub₁, hn₁, _⟩ := dfsVisit_ok g (fuelBound g) n [] black b₁ hv hr hnd
      obtain ⟨hr₂, hnd₂, hsub₂, hns₂⟩ := ih b₁ black' h hr₁ hnd₁
      refine ⟨hr₂, hnd₂, fun x hx => hsub₂ x (hsub₁ x hx), ?_⟩
      intro m hm
      rcases List.mem_cons.mp hm with rfl | hm
      · exact hsub₂ m hn₁
      · exact hns₂ m hm

theorem ranked_lt (g : TaskGraph) :
    ∀ (bl : List String), Ranked g bl → bl.Nodup →
      ∀ a b, EdgeTo g a b → a ∈ bl →
        b ∈ bl ∧ bl.indexOf a < bl.indexOf b := by
  intro bl
  induction bl with
  | nil => intro _ _ a b _ ha; cases ha
  | cons h t ih =>
    intro hr hnd a b hedge ha
    obtain ⟨hdeps, hr'⟩ := hr
    have hht : h ∉ t := (List.nodup_cons.mp hnd).1
    by_cases hah : a = h
    · subst hah
      have hbt : b ∈ t := hdeps b hedge
      have hba : b ≠ a := fun he => hht (he ▸ hbt)
      refine ⟨List.mem_cons_of_mem a hbt, ?_⟩
      rw [List.indexOf_cons_self a t, List.indexOf_cons_ne t (fun he => hba he.symm)]
      exact Nat.succ_pos _
    · have hat : a ∈ t := by
        rcases List.mem_cons.mp ha with h1 | h1
        · exact absurd h1 hah
        · exact h1
      obtain ⟨hbt, hlt⟩ := ih hr' (List.nodup_cons.mp hnd).2 a b hedge hat
      have hbh : b ≠ h := fun he => hht (he ▸ hbt)
      refine ⟨List.mem_cons_of_mem h hbt, ?_⟩
      rw [List.indexOf_cons_ne t (fun he => hah he.symm),
          List.indexOf_cons_ne t (fun he => hbh he.symm)]
      omega

theorem ranked_chain_lt (g : TaskGraph) (bl : List String)
    (hr : Ranked g bl) (hnd : bl.Nodup) :
    ∀ (l : List String) (a : String), List.Chain (EdgeTo g) a l → a ∈ bl → l ≠ [] →
      ∃ z, l.getLast? = Option.some z ∧ z ∈ bl ∧ bl.indexOf a < bl.indexOf z := by
  intro l
  induction l with
  | nil => intro a _ _ hne; exact absurd rfl hne
  | cons b l' ih =>
    intro a hchain ha _
    obtain ⟨hedge, hchain'⟩ := List.chain_cons.mp hchain
    obtain ⟨hbl, hlt⟩ := ranked_lt g bl hr hnd a b hedge ha
    cases l' with
    | nil => exact ⟨b, rfl, hbl, hlt⟩
    | cons c l'' =>
      obtain ⟨z, hz, hzbl, hzlt⟩ := ih b hchain' hbl (by simp)
      exact ⟨z, by rw [List.getLast?_cons_cons]; exact hz, hzbl, by omega⟩

theorem ranked_no_cycle (g : TaskGraph) (bl : List String)
    (hr : Ranked g bl) (hnd : bl.Nodup)
    (hcov : ∀ n ∈ taskNames g, n ∈ bl) : ¬ HasCycle g := by
  rintro ⟨c, x, l, _, hchain⟩
  have hx : x ∈ taskNames g := by
    cases l with
    | nil =>
      have := (List.chain_singleton.mp (by simpa using hchain))
      exact edge_src_registered g x x this
    | cons b l' =>
      have := (List.chain_cons.mp (by simpa using hchain)).1
      exact edge_src_registered g x b this
  obtain ⟨z, hz, _, hlt⟩ :=
    ranked_chain_lt g bl hr hnd (l ++ [x]) x hchain (hcov x hx) (by simp)
  rw [List.getLast?_concat] at hz
  cases hz
  omega

theorem allDepsKnown_firstUnknown (g : TaskGraph) (h : AllDepsKnown g) :
    firstUnknown g = Option.none := by
  unfold firstUnknown
  rw [List.findSome?_eq_none_iff]
  intro t ht
  have hfind : t.depends_on.find? (fun d => !((taskNames g).contains d))
      = Option.none := by
    rw [List.find?_eq_none]
    intro d hd
    have hmem : d ∈ taskNames g := h t ht d hd
    simp [hmem]
  rw [hfind]
  rfl

/-- C2: validation succeeds on every graph with no dependency cycle and
all dependency names registered; every graph containing a cycle fails
validation with a `CycleError` whose reported node list is a genuine
cycle of the graph; in particular, for tasks `A` and `B` depending on
each other, the reported cycle names exactly `{A, B}`. -/
theorem validate_correct (g : TaskGraph) :
    ((¬ HasCycle g) → AllDepsKnown g → validate g = Except.ok ()) ∧
    (HasCycle g → ∃ c, validate g = Except.error (GraphError.cycleError c) ∧
      IsCycle g c) ∧
    (validate cycGraph = Except.error (GraphError.cycleError ["A", "B", "A"]) ∧
      (["A", "B", "A"] : List String).toFinset = {"A", "B"}) := by
  refine ⟨?_, ?_, rfl, by decide⟩
  · intro hnc hknown
    unfold validate
    cases hf : dfsForest g (taskNames g) [] with
    | error c =>
      exact absurd ⟨c, dfsForest_error_sound g (taskNames g) [] c (fun n hn => hn) hf⟩ hnc
    | ok bl =>
      rw [allDepsKnown_firstUnknown g hknown]
  · intro hcyc
    cases hf : dfsForest g (taskNames g) [] with
    | ok bl =>
      obtain ⟨hr, hnd, _, hcov⟩ :=
        dfsForest_ok g (taskNames g) [] bl hf (by trivial) List.nodup_nil
      exact absurd hcyc (ranked_no_cycle g bl hr hnd hcov)
    | error c =>
      exact ⟨c, by unfold validate; rw [hf],
        dfsForest_error_sound g (taskNames g) [] c (fun n hn => hn) hf⟩

/-- Witness for C2: the two-task cycle has a cycle, and validation
reports it. -/
theorem validate_correct_witness :
    HasCycle cycGraph ∧
    (∃ c, validate cycGraph = Except.error (GraphError.cycleError c) ∧
      IsCycle cycGraph c) :=
  have hcyc : HasCycle cycGraph :=
    ⟨["A", "B", "A"], "A", ["B"], rfl,
      List.Chain.cons (by decide) (List.Chain.cons (by decide) List.Chain.nil)⟩
  ⟨hcyc, (validate_correct cycGraph).2.1 hcyc⟩

/-! ## C1 development: topological batches -/

theorem batchesAux_succ (g : TaskGraph) (fuel : Nat) (done : List String) :
    batchesAux g (fuel + 1) done =
      if (readyBatch g done).isEmpty then []
      else readyBatch g done ::
        batchesAux g fuel (done ++ (readyBatch g done).map (fun t => t.name)) := rfl

theorem mem_readyBatch (g : TaskGraph) (done : List String) (t : TaskDef) :
    t ∈ readyBatch g done ↔
      t ∈ g ∧ t.name ∉ done ∧ ∀ d ∈ t.depends_on, d ∈ done := by
  unfold readyBatch sortReady readyTasks
  rw [List.mem_insertionSort, List.mem_filter]
  simp [and_assoc]

theorem readyBatch_names_nodup (g : TaskGraph) (done : List String)
    (hnd : (taskNames g).Nodup) : (taskNames (readyBatch g done)).Nodup := by
  unfold taskNames readyBatch sortReady
  have hperm : ((readyTasks g done).insertionSort
      (fun t u => u.priority ≤ t.priority)).Perm (readyTasks g done) :=
    List.perm_insertionSort _ _
  rw [List.Perm.nodup_iff (hperm.map (fun t => t.name))]
  unfold readyTasks
  have hgn : (g.map (fun t => t.name)).Nodup := hnd
  exact ((List.filter_sublist g).map (fun t => t.name)).nodup hgn

theorem findTask_of_nodup (g : TaskGraph) (hnd : (taskNames g).Nodup) (t : TaskDef)
    (ht : t ∈ g) : findTask g t.name = Option.some t := by
  induction g with
  | nil => cases ht
  | cons u g' ih =>
    unfold taskNames at hnd
    rw [List.map_cons, List.nodup_cons] at hnd
    rcases List.mem_cons.mp ht with rfl | ht'
    · unfold findTask
      exact List.find?_cons_of_pos g' (by simp)
    · have hne : u.name ≠ t.name := by
        intro he
        apply hnd.1
        rw [he]
        exact List.mem_map_of_mem (fun v => v.name) ht'
      unfold findTask
      rw [List.find?_cons_of_neg g' (by simp [hne])]
      exact ih hnd.2 ht'

/-- Containment and disjointness: every name emitted by `batchesAux` is a
registered name outside `done`, and the emitted names never repeat. -/
theorem batchesAux_names (g : TaskGraph) (hnd : (taskNames g).Nodup) :
    ∀ (fuel : Nat) (done : List String),
      (∀ x ∈ (batchesAux g fuel done).flatten.map (fun t => t.name),
        x ∈ taskNames g ∧ x ∉ done) ∧
      ((batchesAux g fuel done).flatten.map (fun t => t.name)).Nodup := by
  intro fuel
  induction fuel with
  | zero => intro done; simp [batchesAux]
  | succ fuel ih =>
    intro done
    rw [batchesAux_succ]
    by_cases hb : (readyBatch g done).isEmpty
    · simp [hb]
    · rw [if_neg hb]
      obtain ⟨ihmem, ihnd⟩ := ih (done ++ (readyBatch g done).map (fun t => t.name))
      simp only [List.flatten_cons, List.map_append]
      constructor
      · intro x hx
        rcases List.mem_append.mp hx with hx | hx
        · obtain ⟨t, ht, rfl⟩ := List.mem_map.mp hx
          obtain ⟨htg, hnm, _⟩ := (mem_readyBatch g done t).mp ht
          exact ⟨List.mem_map_of_mem (fun u => u.name) htg, hnm⟩
        · obtain ⟨h1, h2⟩ := ihmem x hx
          exact ⟨h1, fun hc => h2 (List.mem_append.mpr (Or.inl hc))⟩
      · rw [List.nodup_append]
        refine ⟨readyBatch_names_nodup g done hnd, ihnd, ?_⟩
        intro x hx hx'
        exact (ihmem x hx').2 (List.mem_append.mpr (Or.inr hx))

/-- Dependencies of a task in batch `i` lie in `done` or in a strictly
earlier batch. -/
theorem batchesAux_deps (g : TaskGraph) :
    ∀ (fuel : Nat) (done : List String) (i : Nat) (t : TaskDef),
      t ∈ (batchesAux g fuel done).getD i [] → ∀ d ∈ t.depends_on,
        d ∈ done ∨
          d ∈ ((batchesAux g fuel done).take i).flatten.map (fun u => u.name) := by
  intro fuel
  induction fuel with
  | zero => intro done i t ht; simp [batchesAux] at ht
  | succ fuel ih =>
    intro done i t ht d hd
    rw [batchesAux_succ] at ht ⊢
    by_cases hb : (readyBatch g done).isEmpty
    · simp [hb] at ht
    · rw [if_neg hb] at ht ⊢
      cases i with
      | zero =>
        simp only [List.getD_cons_zero] at ht
        exact Or.inl (((mem_readyBatch g done t).mp ht).2.2 d hd)
      | succ i =>
        simp only [List.getD_cons_succ] at ht
        rcases ih (done ++ (readyBatch g done).map (fun t => t.name)) i t ht d hd with
          hdone | hbatch
        · rcases List.mem_append.mp hdone with h1 | h1
          · exact Or.inl h1
          · refine Or.inr ?_
            simp only [List.take_succ_cons, List.flatten_cons, List.map_append]
            exact List.mem_append.mpr (Or.inl h1)
        · refine Or.inr ?_
          simp only [List.take_succ_cons, List.flatten_cons, List.map_append]
          exact List.mem_append.mpr (Or.inr hbatch)

theorem exists_max_index (f : String → Nat) :
    ∀ (l : List String), l ≠ [] → ∃ r ∈ l, ∀ x ∈ l, f x ≤ f r := by
  intro l
  induction l with
  | nil => intro h; exact absurd rfl h
  | cons a l' ih =>
    intro _
    cases l' with
    | nil => exact ⟨a, List.mem_cons_self a [], by simp⟩
    | cons b l'' =>
      obtain ⟨r, hr, hmax⟩ := ih (by simp)
      by_cases hle : f a ≤ f r
      · refine ⟨r, List.mem_cons_of_mem a hr, ?_⟩
        intro x hx
        rcases List.mem_cons.mp hx with rfl | hx
        · exact hle
        · exact hmax x hx
      · refine ⟨a, List.mem_cons_self a _, ?_⟩
        intro x hx
        rcases List.mem_cons.mp hx with rfl | hx
        · exact Nat.le_refl _
        · exact Nat.le_trans (hmax x hx) (by omega)

/-- Progress: as long as validation passed and some registered name is
not yet done, some task is ready. -/
theorem readyBatch_progress (g : TaskGraph) (bl : List String)
    (hr : Ranked g bl) (hblnd : bl.Nodup)
    (hcov : ∀ n ∈ taskNames g, n ∈ bl)
    (hknown : AllDepsKnown g) (hnd : (taskNames g).Nodup)
    (done : List String) (n : String) (hn : n ∈ taskNames g) (hnd2 : n ∉ done) :
    ¬ (readyBatch g done).isEmpty := by
  set R := (taskNames g).filter (fun x => !(done.contains x)) with hR
  have hRne : R ≠ [] := by
    have : n ∈ R := by
      rw [hR, List.mem_filter]
      exact ⟨hn, by simp [hnd2]⟩
    intro he
    rw [he] at this
    cases this
  obtain ⟨r, hrR, hmax⟩ := exists_max_index (fun x => bl.indexOf x) R hRne
  have hrT : r ∈ taskNames g := (List.mem_filter.mp (hR ▸ hrR)).1
  have hrD : r ∉ done := by
    have := (List.mem_filter.mp (hR ▸ hrR)).2
    simp at this
    exact this
  obtain ⟨t, htg, hname⟩ := List.mem_map.mp hrT
  have hfind : findTask g r = Option.some t := hname ▸ findTask_of_nodup g hnd t htg
  have hdeps : deps g r = t.depends_on := by unfold deps; rw [hfind]
  have hready : ∀ d ∈ t.depends_on, d ∈ done := by
    intro d hd
    by_contra hdnot
    have hdT : d ∈ taskNames g := hknown t htg d hd
    have hdR : d ∈ R := by
      rw [hR, List.mem_filter]
      exact ⟨hdT, by simp [hdnot]⟩
    have hedge : EdgeTo g r d := by
      unfold EdgeTo
      rw [hdeps]
      exact hd
    obtain ⟨_, hlt⟩ := ranked_lt g bl hr hblnd r d hedge (hcov r hrT)
    exact absurd (hmax d hdR) (by omega)
  have htmem : t ∈ readyBatch g done :=
    (mem_readyBatch g done t).mpr ⟨htg, hname ▸ hrD, hready⟩
  intro hemp
  rw [List.isEmpty_iff] at hemp
  rw [hemp] at htmem
  cases htmem

/-- Coverage: with enough fuel, every not-yet-done registered name is
emitted by some batch. -/
theorem batchesAux_cover (g : TaskGraph) (bl : List String)
    (hr : Ranked g bl) (hblnd : bl.Nodup)
    (hcov : ∀ n ∈ taskNames g, n ∈ bl)
    (hknown : AllDepsKnown g) (hnd : (taskNames g).Nodup) :
    ∀ (fuel : Nat) (done : List String),
      ((taskNames g).filter (fun x => !(done.contains x))).length ≤ fuel →
      ∀ n ∈ taskNames g, n ∉ done →
        n ∈ (batchesAux g fuel done).flatten.map (fun t => t.name) := by
  intro fuel
  induction fuel with
  | zero =>
    intro done hlen n hn hnd2
    exfalso
    have : n ∈ (taskNames g).filter (fun x => !(done.contains x)) := by
      rw [List.mem_filter]
      exact ⟨hn, by simp [hnd2]⟩
    have := List.length_pos_of_mem this
    omega
  | succ fuel ih =>
    intro done hlen n hn hnd2
    have hprog := readyBatch_progress g bl hr hblnd hcov hknown hnd done n hn hnd2
    rw [batchesAux_succ, if_neg hprog]
    simp only [List.flatten_cons, List.map_append]
    by_cases hnb : n ∈ (readyBatch g done).map (fun t => t.name)
    · exact List.mem_append.mpr (Or.inl hnb)
    · refine List.mem_append.mpr (Or.inr ?_)
      set done' := done ++ (readyBatch g done).map (fun t => t.name) with hdone'
      have hfilter :
          (taskNames g).filter (fun x => !(done'.contains x)) =
            ((taskNames g).filter (fun x => !(done.contains x))).filter
              (fun x => !(((readyBatch g done).map (fun t => t.name)).contains x)) := by
        rw [List.filter_filter]
        apply List.filter_congr
        intro x _
        rw [hdone']
        simp [Bool.and_comm]
      have hlt :
          ((taskNames g).filter (fun x => !(done'.contains x))).length ≤ fuel := by
        rw [hfilter]
        have hbne : readyBatch g done ≠ [] := by
          intro he
          exact hprog (by rw [he]; rfl)
        obtain ⟨t0, ht0⟩ := List.exists_mem_of_ne_nil _ hbne
        have ht0R : t0.name ∈ (taskNames g).filter (fun x => !(done.contains x)) := by
          obtain ⟨htg, hnm, _⟩ := (mem_readyBatch g done t0).mp ht0
          rw [List.mem_filter]
          exact ⟨List.mem_map_of_mem (fun u => u.name) htg, by simp [hnm]⟩
        have hstrict :
            (((taskNames g).filter (fun x => !(done.contains x))).filter
              (fun x => !(((readyBatch g done).map (fun t => t.name)).contains x))).length
            < ((taskNames g).filter (fun x => !(done.contains x))).length := by
          refine List.length_filter_lt_length_iff_exists.mpr ⟨t0.name, ht0R, ?_⟩
          simp [List.mem_map_of_mem (fun u => u.name) ht0]
        omega
      refine ih done' hlt n hn ?_
      rw [hdone']
      intro hc
      rcases List.mem_append.mp hc with h1 | h1
      · exact hnd2 h1
      · exact hnb h1

theorem firstUnknown_none_allDepsKnown (g : TaskGraph)
    (h : firstUnknown g = Option.none) : AllDepsKnown g := by
  unfold firstUnknown at h
  rw [List.findSome?_eq_none_iff] at h
  intro t ht d hd
  have := h t ht
  rw [Option.map_eq_none'] at this
  rw [List.find?_eq_none] at this
  have := this d hd
  simp at this
  exact this

theorem validate_ok_inv (g : TaskGraph) (h : validate g = Except.ok ()) :
    (∃ bl, dfsForest g (taskNames g) [] = Except.ok bl) ∧
      firstUnknown g = Option.none := by
  unfold validate at h
  cases hf : dfsForest g (taskNames g) [] with
  | error c => rw [hf] at h; cases h
  | ok bl =>
    rw [hf] at h
    cases hu : firstUnknown g with
    | some td => rw [hu] at h; cases h
    | none => exact ⟨⟨bl, rfl⟩, rfl⟩

/-- C1: for every graph that validates (acyclic, fully resolvable) with
distinct registered names, `topological_batches()` yields every
registered task exactly once (the emitted names are a permutation of the
registered names), and every dependency of a task in batch `i` was
emitted by a strictly earlier batch. -/
theorem topological_batches_sound (g : TaskGraph)
    (hv : validate g = Except.ok ()) (hnd : (taskNames g).Nodup) :
    ((topological_batches g).flatten.map (fun t => t.name)).Perm (taskNames g) ∧
    (∀ i, ∀ t ∈ (topological_batches g).getD i [], ∀ d ∈ t.depends_on,
      d ∈ ((topological_batches g).take i).flatten.map (fun u => u.name)) := by
  obtain ⟨⟨bl, hbl⟩, hu⟩ := validate_ok_inv g hv
  have hknown : AllDepsKnown g := firstUnknown_none_allDepsKnown g hu
  obtain ⟨hr, hblnd, _, hcov⟩ :=
    dfsForest_ok g (taskNames g) [] bl hbl (by trivial) List.nodup_nil
  unfold topological_batches
  constructor
  · obtain ⟨hmem, hbnd⟩ := batchesAux_names g hnd g.length []
    rw [List.perm_ext_iff_of_nodup hbnd hnd]
    intro x
    constructor
    · intro hx
      exact (hmem x hx).1
    · intro hx
      refine batchesAux_cover g bl hr hblnd hcov hknown hnd g.length [] ?_ x hx (by simp)
      have : ((taskNames g).filter (fun x => !(([] : List String).contains x)))
          = taskNames g := by
        apply List.filter_eq_self.mpr
        intro a _
        rfl
      rw [this]
      unfold taskNames
      simp
  · intro i t ht d hd
    rcases batchesAux_deps g g.length [] i t ht d hd with h1 | h1
    · cases h1
    · exact h1

/-- The documented ETL chain: extract, transform (depends on extract),
load (depends on transform). -/
def chainG : TaskGraph :=
  [ { name := "extract", run := okBody (Val.vints [1, 2, 3]) },
    { name := "transform", depends_on := ["extract"], run := okBody (Val.vints [2, 4, 6]) },
    { name := "load", depends_on := ["transform"], run := okBody (Val.vint 3) } ]

/-- Witness for C1 on the concrete ETL chain. -/
theorem topological_batches_sound_witness :
    validate chainG = Except.ok () ∧
    ((topological_batches chainG).flatten.map (fun t => t.name)).Perm
      (taskNames chainG) :=
  ⟨rfl, (topological_batches_sound chainG rfl (by decide)).1⟩

/-! ## Executor lemmas shared by the mode-equivalence and caching claims -/

/-- No recorded result failed. -/
def NoFailed (res : List TaskResult) : Prop := anyFailed res = false

/-- Every succeeded result has a resolvable output in the outputs
mapping. -/
def Covered (res : List TaskResult) (outs : List (String × Val)) : Prop :=
  ∀ r ∈ res, r.state = TaskState.succeeded →
    (lookupV outs r.task_name).isSome = true

/-- Every task body succeeds on every input, and every effective retry
policy grants at least one attempt. -/
def GoodBodies (g : TaskGraph) : Prop :=
  (∀ t ∈ g, ∀ ins, ∃ v, t.run ins = Except.ok v) ∧
  (∀ t ∈ g, 1 ≤ (t.retry_policy.getD { max_attempts := 1 }).max_attempts)

theorem depsAllSucceeded_iff (res : List TaskResult) (t : TaskDef) :
    depsAllSucceeded res t = true ↔
      ∀ d ∈ t.depends_on, ∃ r ∈ res, r.task_name = d ∧
        r.state = TaskState.succeeded := by
  unfold depsAllSucceeded
  rw [List.all_eq_true]
  constructor
  · intro h d hd
    have := h d hd
    rw [List.any_eq_true] at this
    obtain ⟨r, hr, hp⟩ := this
    rw [Bool.and_eq_true, decide_eq_true_eq, decide_eq_true_eq] at hp
    exact ⟨r, hr, hp.1, hp.2⟩
  · intro h d hd
    obtain ⟨r, hr, h1, h2⟩ := h d hd
    rw [List.any_eq_true]
    refine ⟨r, hr, ?_⟩
    rw [Bool.and_eq_true, decide_eq_true_eq, decide_eq_true_eq]
    exact ⟨h1, h2⟩

theorem anyFailed_append (r₁ r₂ : List TaskResult) :
    anyFailed (r₁ ++ r₂) = (anyFailed r₁ || anyFailed r₂) := by
  unfold anyFailed
  exact List.any_append

theorem lookupV_isSome_append (outs : List (String × Val)) (p : String × Val)
    (n : String) (h : (lookupV outs n).isSome = true) :
    (lookupV (outs ++ [p]) n).isSome = true := by
  induction outs with
  | nil => cases h
  | cons q outs ih =>
    cases q with
    | mk k v =>
      simp only [List.cons_append, lookupV] at h ⊢
      by_cases hk : k = n
      · rw [if_pos hk] at h ⊢
        exact h
      · rw [if_neg hk] at h ⊢
        exact ih h

theorem lookupV_self_append (outs : List (String × Val)) (n : String) (v : Val) :
    (lookupV (outs ++ [(n, v)]) n).isSome = true := by
  induction outs with
  | nil => simp [lookupV]
  | cons q outs ih =>
    cases q with
    | mk k w =>
      by_cases hk : k = n
      · simp [lookupV, hk]
      · simp only [List.cons_append, lookupV]
        rw [if_neg hk]
        exact ih

theorem resolveInputs_isSome (outs : List (String × Val)) :
    ∀ (ds : List String), (∀ d ∈ ds, (lookupV outs d).isSome = true) →
      ∃ ins, resolveInputs outs ds = Option.some ins := by
  intro ds
  induction ds with
  | nil => intro _; exact ⟨[], rfl⟩
  | cons d ds ih =>
    intro h
    obtain ⟨v, hv⟩ := Option.isSome_iff_exists.mp (h d (List.mem_cons_self d ds))
    obtain ⟨ins, hins⟩ := ih (fun d' hd' => h d' (List.mem_cons_of_mem d hd'))
    refine ⟨v :: ins, ?_⟩
    unfold resolveInputs
    rw [hv, hins]

theorem retryRun_ok (body : List Val → Except String Val) (ins : List Val)
    (v : Val) (hb : body ins = Except.ok v) :
    ∀ k u, 1 ≤ k → retryRun body ins k u = (u, Except.ok v) := by
  intro k u hk
  cases k with
  | zero => omega
  | succ k =>
    unfold retryRun
    rw [hb]

/-- The result of dispatching a task always carries that task's name. -/
theorem execTask_name (cfg : EngineConfig) (t : TaskDef)
    (outs : List (String × Val)) (store : CacheStore) (now : Nat) :
    (execTask cfg t outs store now).result.task_name = t.name := by
  unfold execTask
  cases resolveInputs outs t.depends_on with
  | none => rfl
  | some ins =>
    dsimp only
    cases (if cfg.enable_caching then
        match t.cache_policy with
        | Option.some _ => cacheLookup store (t.name, ins) now
        | Option.none => Option.none
      else Option.none) with
    | some v => rfl
    | none =>
      dsimp only
      cases (retryRun t.run ins (t.retry_policy.getD { max_attempts := 1 }).max_attempts 0).2 with
      | ok v => rfl
      | error e => rfl

/-- `execTask` reads the run outputs only through `resolveInputs`. -/
theorem execTask_outputs_congr (cfg : EngineConfig) (t : TaskDef)
    (o₁ o₂ : List (String × Val)) (store : CacheStore) (now : Nat)
    (h : resolveInputs o₁ t.depends_on = resolveInputs o₂ t.depends_on) :
    execTask cfg t o₁ store now = execTask cfg t o₂ store now := by
  unfold execTask
  rw [h]

/-- `execTask` reads the configuration only through `enable_caching`. -/
theorem execTask_config_congr (cfg cfg' : EngineConfig) (t : TaskDef)
    (outs : List (String × Val)) (store : CacheStore) (now : Nat)
    (h : cfg.enable_caching = cfg'.enable_caching) :
    execTask cfg t outs store now = execTask cfg' t outs store now := by
  unfold execTask
  rw [h]

/-- Executing a task whose dependencies resolved, whose body always
succeeds and whose retry policy grants an attempt yields a succeeded
result with an output and zero retries. -/
theorem execTask_success (cfg : EngineConfig) (t : TaskDef)
    (outs : List (String × Val)) (store : CacheStore) (now : Nat) (ins : List Val)
    (hres : resolveInputs outs t.depends_on = Option.some ins)
    (hbody : ∀ ins', ∃ v, t.run ins' = Except.ok v)
    (hp : 1 ≤ (t.retry_policy.getD { max_attempts := 1 }).max_attempts) :
    ∃ v c, (execTask cfg t outs store now).result
      = { task_name := t.name, state := TaskState.succeeded,
          output := Option.some v, records_processed := recordsOf v,
          retries_attempted := 0, cache_hit := c } := by
  unfold execTask
  rw [hres]
  dsimp only
  cases hcache : (if cfg.enable_caching then
      match t.cache_policy with
      | Option.some _ => cacheLookup store (t.name, ins) now
      | Option.none => Option.none
    else Option.none) with
  | some v => exact ⟨v, true, rfl⟩
  | none =>
    dsimp only
    obtain ⟨v, hv⟩ := hbody ins
    rw [retryRun_ok t.run ins v hv _ 0 hp]
    exact ⟨v, false, rfl⟩

theorem depsAllSucceeded_append (res extra : List TaskResult) (t : TaskDef)
    (h : ∀ r ∈ extra, r.task_name ∉ t.depends_on) :
    depsAllSucceeded (res ++ extra) t = depsAllSucceeded res t := by
  rw [Bool.eq_iff_iff, depsAllSucceeded_iff, depsAllSucceeded_iff]
  constructor
  · intro hall d hd
    obtain ⟨r, hr, h1, h2⟩ := hall d hd
    rcases List.mem_append.mp hr with hr | hr
    · exact ⟨r, hr, h1, h2⟩
    · exact absurd (by rw [h1]; exact hd) (h r hr)
  · intro hall d hd
    obtain ⟨r, hr, h1, h2⟩ := hall d hd
    exact ⟨r, List.mem_append.mpr (Or.inl hr), h1, h2⟩

theorem lookupV_append_not_mem (eO : List (String × Val)) :
    ∀ (outs : List (String × Val)) (n : String),
      n ∉ eO.map (fun p => p.1) →
      lookupV (outs ++ eO) n = lookupV outs n := by
  intro outs
  induction outs with
  | nil =>
    intro n hn
    induction eO with
    | nil => rfl
    | cons p eO ih =>
      cases p with
      | mk k v =>
        simp only [List.map_cons, List.mem_cons] at hn
        push_neg at hn
        simp only [List.nil_append, lookupV]
        rw [if_neg (fun he => hn.1 he.symm)]
        exact ih hn.2
  | cons q outs ih =>
    intro n hn
    cases q with
    | mk k v =>
      simp only [List.cons_append, lookupV]
      by_cases hk : k = n
      · rw [if_pos hk, if_pos hk]
      · rw [if_neg hk, if_neg hk]
        exact ih n hn

theorem resolveInputs_append (outs eO : List (String × Val)) (ds : List String)
    (h : ∀ d ∈ ds, d ∉ eO.map (fun p => p.1)) :
    resolveInputs (outs ++ eO) ds = resolveInputs outs ds := by
  induction ds with
  | nil => rfl
  | cons d ds ih =>
    unfold resolveInputs
    rw [lookupV_append_not_mem eO outs d (h d (List.mem_cons_self d ds)),
        ih (fun d' hd' => h d' (List.mem_cons_of_mem d hd'))]

/-! ## C4 development: the three execution modes -/

theorem dispatch_results (cfg : EngineConfig) (now : Nat) (sR : List TaskResult)
    (sO : List (String × Val)) (st : ExecState) (t : TaskDef) :
    ∃ r, (dispatch cfg now sR sO st t).results = st.results ++ [r] ∧
      r.task_name = t.name := by
  unfold dispatch
  by_cases hd : depsAllSucceeded sR t = true
  · rw [if_pos hd]
    exact ⟨_, rfl, execTask_name cfg t sO st.store now⟩
  · rw [if_neg hd]
    exact ⟨_, rfl, rfl⟩

theorem dispatch_outputs (cfg : EngineConfig) (now : Nat) (sR : List TaskResult)
    (sO : List (String × Val)) (st : ExecState) (t : TaskDef) :
    ∃ δ, (dispatch cfg now sR sO st t).outputs = st.outputs ++ δ ∧
      ∀ p ∈ δ, p.1 = t.name := by
  unfold dispatch
  by_cases hd : depsAllSucceeded sR t = true
  · rw [if_pos hd]
    unfold recordOutcome
    cases ho : (execTask cfg t sO st.store now).result.output with
    | some v =>
      refine ⟨[(t.name, v)], by simp [ho], ?_⟩
      intro p hp
      rw [List.mem_singleton] at hp
      rw [hp]
    | none => exact ⟨[], by simp [ho], by simp⟩
  · rw [if_neg hd]
    exact ⟨[], by simp [markResult], by simp⟩

/-- The two dispatches of one task agree when the extra accumulated
results and outputs are irrelevant to the task's dependencies. -/
theorem dispatch_congr (cfg : EngineConfig) (now : Nat) (st : ExecState)
    (t : TaskDef) (sR eR : List TaskResult) (sO eO : List (String × Val))
    (hres : st.results = sR ++ eR) (houts : st.outputs = sO ++ eO)
    (hR : ∀ r ∈ eR, r.task_name ∉ t.depends_on)
    (hO : ∀ d ∈ t.depends_on, d ∉ eO.map (fun p => p.1)) :
    dispatch cfg now st.results st.outputs st t = dispatch cfg now sR sO st t := by
  unfold dispatch
  rw [hres, houts, depsAllSucceeded_append sR eR t hR,
      execTask_outputs_congr cfg t (sO ++ eO) sO st.store now
        (resolveInputs_append sO eO t.depends_on hO)]

/-- Sequential execution of one batch from its boundary state equals the
concurrent batch dispatch, because batch members are mutually
independent. -/
theorem runSeq_batch (cfg : EngineConfig) (now : Nat) (hff : cfg.fail_fast = false) :
    ∀ (b : List TaskDef) (st : ExecState) (sR eR : List TaskResult)
      (sO eO : List (String × Val)),
      st.results = sR ++ eR → st.outputs = sO ++ eO →
      (∀ t ∈ b, ∀ r ∈ eR, r.task_name ∉ t.depends_on) →
      (∀ t ∈ b, ∀ d ∈ t.depends_on, d ∉ eO.map (fun p => p.1)) →
      (∀ t ∈ b, ∀ u ∈ b, u.name ∉ t.depends_on) →
      runSeq cfg now b st = execBatch cfg now sR sO b st := by
  intro b
  induction b with
  | nil => intro st sR eR sO eO _ _ _ _ _; rfl
  | cons t b' ih =>
    intro st sR eR sO eO hres houts hR hO hb
    have hcond : (cfg.fail_fast && anyFailed st.results) = false := by
      rw [hff, Bool.false_and]
    have hdisp : dispatch cfg now st.results st.outputs st t
        = dispatch cfg now sR sO st t :=
      dispatch_congr cfg now st t sR eR sO eO hres houts
        (hR t (List.mem_cons_self t b')) (hO t (List.mem_cons_self t b'))
    simp only [runSeq, execBatch, hcond, Bool.false_eq_true, if_false]
    rw [hdisp]
    obtain ⟨r, hr, hrname⟩ := dispatch_results cfg now sR sO st t
    obtain ⟨δ, hδ, hδname⟩ := dispatch_outputs cfg now sR sO st t
    refine ih (dispatch cfg now sR sO st t) sR (eR ++ [r]) sO (eO ++ δ) ?_ ?_ ?_ ?_ ?_
    · rw [hr, hres, List.append_assoc]
    · rw [hδ, houts, List.append_assoc]
    · intro t' ht' r' hr'
      rcases List.mem_append.mp hr' with h1 | h1
      · exact hR t' (List.mem_cons_of_mem t ht') r' h1
      · rw [List.mem_singleton] at h1
        rw [h1, hrname]
        exact hb t' (List.mem_cons_of_mem t ht') t (List.mem_cons_self t b')
    · intro t' ht' d hd
      rw [List.map_append, List.mem_append]
      rintro (h1 | h1)
      · exact hO t' (List.mem_cons_of_mem t ht') d hd h1
      · obtain ⟨p, hp, hpd⟩ := List.mem_map.mp h1
        rw [hδname p hp] at hpd
        rw [← hpd] at hd
        exact hb t' (List.mem_cons_of_mem t ht') t (List.mem_cons_self t b') hd
    · intro t' ht' u hu
      exact hb t' (List.mem_cons_of_mem t ht') u (List.mem_cons_of_mem t hu)

theorem runSeq_append (cfg : EngineConfig) (now : Nat) :
    ∀ (l₁ l₂ : List TaskDef) (st : ExecState),
      runSeq cfg now (l₁ ++ l₂) st = runSeq cfg now l₂ (runSeq cfg now l₁ st) := by
  intro l₁
  induction l₁ with
  | nil => intro l₂ st; rfl
  | cons t l₁ ih =>
    intro l₂ st
    simp only [List.cons_append, runSeq]
    by_cases hcond : (cfg.fail_fast && anyFailed st.results) = true
    · rw [if_pos hcond, if_pos hcond]
      exact ih l₂ _
    · rw [if_neg hcond, if_neg hcond]
      exact ih l₂ _

theorem readyBatch_independent (g : TaskGraph) (done : List String) :
    ∀ t ∈ readyBatch g done, ∀ u ∈ readyBatch g done, u.name ∉ t.depends_on := by
  intro t ht u hu hdep
  obtain ⟨_, _, hdeps⟩ := (mem_readyBatch g done t).mp ht
  obtain ⟨_, hnm, _⟩ := (mem_readyBatch g done u).mp hu
  exact hnm (hdeps u.name hdep)

/-- Under `fail_fast = false`, sequential execution of the flattened
batches equals batch-parallel execution. -/
theorem runSeq_eq_runPar (cfg : EngineConfig) (now : Nat) (hff : cfg.fail_fast = false)
    (g : TaskGraph) :
    ∀ (fuel : Nat) (done : List String) (st : ExecState),
      runSeq cfg now (batchesAux g fuel done).flatten st
        = runPar cfg now (batchesAux g fuel done) st := by
  intro fuel
  induction fuel with
  | zero => intro done st; rfl
  | succ fuel ih =>
    intro done st
    rw [batchesAux_succ]
    by_cases hb : (readyBatch g done).isEmpty
    · rw [if_pos hb]; rfl
    · rw [if_neg hb]
      rw [List.flatten_cons, runSeq_append]
      have hcond : (cfg.fail_fast && anyFailed st.results) = false := by
        rw [hff, Bool.false_and]
      simp only [runPar, hcond, Bool.false_eq_true, if_false]
      rw [runSeq_batch cfg now hff (readyBatch g done) st st.results [] st.outputs []
        (by simp) (by simp) (by simp) (by simp) (readyBatch_independent g done)]
      exact ih _ _

theorem execBatch_results_names (cfg : EngineConfig) (now : Nat)
    (sR : List TaskResult) (sO : List (String × Val)) :
    ∀ (b : List TaskDef) (st : ExecState),
      (execBatch cfg now sR sO b st).results.map (fun r => r.task_name)
        = st.results.map (fun r => r.task_name) ++ b.map (fun t => t.name) := by
  intro b
  induction b with
  | nil => intro st; simp [execBatch]
  | cons t b' ih =>
    intro st
    simp only [execBatch]
    rw [ih]
    obtain ⟨r, hr, hrname⟩ := dispatch_results cfg now sR sO st t
    rw [hr]
    simp [hrname]

/-- Under `fail_fast = false`, continuous async dispatch equals
batch-parallel execution: the recomputed ready sets are exactly the
topological batches. -/
theorem runAsync_eq_runPar (cfg : EngineConfig) (now : Nat) (hff : cfg.fail_fast = false)
    (g : TaskGraph) :
    ∀ (fuel : Nat) (st : ExecState),
      runAsync cfg now g fuel st
        = runPar cfg now (batchesAux g fuel (st.results.map (fun r => r.task_name))) st := by
  intro fuel
  induction fuel with
  | zero => intro st; rfl
  | succ fuel ih =>
    intro st
    have hcond : (cfg.fail_fast && anyFailed st.results) = false := by
      rw [hff, Bool.false_and]
    rw [batchesAux_succ]
    simp only [runAsync, hcond, Bool.false_eq_true, if_false]
    by_cases hb : (readyBatch g (st.results.map (fun r => r.task_name))).isEmpty
    · rw [if_pos hb, if_pos hb]; rfl
    · rw [if_neg hb, if_neg hb]
      simp only [runPar, hcond, Bool.false_eq_true, if_false]
      rw [ih]
      congr 1
      congr 1
      rw [execBatch_results_names]

/-- The same engine configuration with fail-fast disabled. -/
def noFF (cfg : EngineConfig) : EngineConfig :=
  { fail_fast := false, enable_caching := cfg.enable_caching }

theorem dispatch_config_congr (cfg cfg' : EngineConfig) (now : Nat)
    (sR : List TaskResult) (sO : List (String × Val)) (st : ExecState) (t : TaskDef)
    (h : cfg.enable_caching = cfg'.enable_caching) :
    dispatch cfg now sR sO st t = dispatch cfg' now sR sO st t := by
  unfold dispatch
  rw [execTask_config_congr cfg cfg' t sO st.store now h]

/-- Dispatching a task of a graph whose bodies always succeed preserves
the no-failure and coverage invariants, as long as the snapshot the
dispatch reads is itself covered. -/
theorem dispatch_preserves (g : TaskGraph) (hG : GoodBodies g)
    (cfg : EngineConfig) (now : Nat) (sR : List TaskResult)
    (sO : List (String × Val)) (hsnap : Covered sR sO)
    (st : ExecState) (t : TaskDef) (htg : t ∈ g)
    (hNF : NoFailed st.results) (hcov : Covered st.results st.outputs) :
    NoFailed (dispatch cfg now sR sO st t).results ∧
    Covered (dispatch cfg now sR sO st t).results (dispatch cfg now sR sO st t).outputs := by
  unfold dispatch
  by_cases hd : depsAllSucceeded sR t = true
  · rw [if_pos hd]
    have hlk : ∀ d ∈ t.depends_on, (lookupV sO d).isSome = true := by
      intro d hdd
      obtain ⟨r, hr, hrn, hrs⟩ := (depsAllSucceeded_iff sR t).mp hd d hdd
      have := hsnap r hr hrs
      rw [hrn] at this
      exact this
    obtain ⟨ins, hins⟩ := resolveInputs_isSome sO t.depends_on hlk
    obtain ⟨v, c, hshape⟩ :=
      execTask_success cfg t sO st.store now ins hins (hG.1 t htg) (hG.2 t htg)
    constructor
    · unfold NoFailed at hNF ⊢
      unfold recordOutcome
      simp only [anyFailed_append, hNF, Bool.false_or]
      unfold anyFailed
      simp [hshape]
    · unfold recordOutcome Covered
      intro r hr hrs
      simp only [hshape] at hr ⊢
      rcases List.mem_append.mp hr with hr | hr
      · have := hcov r hr hrs
        exact lookupV_isSome_append st.outputs (t.name, v) r.task_name this
      · rw [List.mem_singleton] at hr
        rw [hr]
        exact lookupV_self_append st.outputs t.name v
  · rw [if_neg hd]
    constructor
    · unfold NoFailed at hNF ⊢
      unfold markResult
      simp only [anyFailed_append, hNF, Bool.false_or]
      unfold anyFailed
      simp
    · unfold markResult Covered
      intro r hr hrs
      rcases List.mem_append.mp hr with hr | hr
      · exact hcov r hr hrs
      · rw [List.mem_singleton] at hr
        rw [hr] at hrs
        cases hrs

/-- Sequential execution ignores `fail_fast` when no task ever fails. -/
theorem runSeq_config (g : TaskGraph) (hG : GoodBodies g)
    (cfg : EngineConfig) (now : Nat) :
    ∀ (ts : List TaskDef) (st : ExecState), (∀ t ∈ ts, t ∈ g) →
      NoFailed st.results → Covered st.results st.outputs →
      runSeq cfg now ts st
        = runSeq (noFF cfg) now ts st ∧
      NoFailed (runSeq cfg now ts st).results ∧
      Covered (runSeq cfg now ts st).results (runSeq cfg now ts st).outputs := by
  intro ts
  induction ts with
  | nil => intro st _ hNF hcov; exact ⟨rfl, hNF, hcov⟩
  | cons t ts ih =>
    intro st hts hNF hcov
    have hcond : (cfg.fail_fast && anyFailed st.results) = false := by
      unfold NoFailed at hNF
      rw [hNF, Bool.and_false]
    have hcond2 : ((noFF cfg).fail_fast && anyFailed st.results) = false := by
      simp [noFF]
    simp only [runSeq, hcond, hcond2, Bool.false_eq_true, if_false]
    rw [← dispatch_config_congr cfg (noFF cfg) now st.results st.outputs st t rfl]
    obtain ⟨hNF', hcov'⟩ :=
      dispatch_preserves g hG cfg now st.results st.outputs hcov st t
        (hts t (List.mem_cons_self t ts)) hNF hcov
    exact ih (dispatch cfg now st.results st.outputs st t)
      (fun u hu => hts u (List.mem_cons_of_mem t hu)) hNF' hcov'

/-- Batch dispatch likewise ignores `fail_fast` and preserves the
invariants when no task ever fails. -/
theorem execBatch_config (g : TaskGraph) (hG : GoodBodies g)
    (cfg : EngineConfig) (now : Nat) (sR : List TaskResult)
    (sO : List (String × Val)) (hsnap : Covered sR sO) :
    ∀ (b : List TaskDef) (st : ExecState), (∀ t ∈ b, t ∈ g) →
      NoFailed st.results → Covered st.results st.outputs →
      execBatch cfg now sR sO b st = execBatch (noFF cfg) now sR sO b st ∧
      NoFailed (execBatch cfg now sR sO b st).results ∧
      Covered (execBatch cfg now sR sO b st).results
        (execBatch cfg now sR sO b st).outputs := by
  intro b
  induction b with
  | nil => intro st _ hNF hcov; exact ⟨rfl, hNF, hcov⟩
  | cons t b' ih =>
    intro st htb hNF hcov
    simp only [execBatch]
    rw [← dispatch_config_congr cfg (noFF cfg) now sR sO st t rfl]
    obtain ⟨hNF', hcov'⟩ :=
      dispatch_preserves g hG cfg now sR sO hsnap st t
        (htb t (List.mem_cons_self t b')) hNF hcov
    exact ih (dispatch cfg now sR sO st t)
      (fun u hu => htb u (List.mem_cons_of_mem t hu)) hNF' hcov'

/-- Batch-parallel execution ignores `fail_fast` when no task ever
fails. -/
theorem runPar_config (g : TaskGraph) (hG : GoodBodies g)
    (cfg : EngineConfig) (now : Nat) :
    ∀ (bs : List (List TaskDef)) (st : ExecState),
      (∀ b ∈ bs, ∀ t ∈ b, t ∈ g) →
      NoFailed st.results → Covered st.results st.outputs →
      runPar cfg now bs st = runPar (noFF cfg) now bs st ∧
      NoFailed (runPar cfg now bs st).results ∧
      Covered (runPar cfg now bs st).results (runPar cfg now bs st).outputs := by
  intro bs
  induction bs with
  | nil => intro st _ hNF hcov; exact ⟨rfl, hNF, hcov⟩
  | cons b bs ih =>
    intro st hbs hNF hcov
    have hcond : (cfg.fail_fast && anyFailed st.results) = false := by
      unfold NoFailed at hNF
      rw [hNF, Bool.and_false]
    have hcond2 : ((noFF cfg).fail_fast && anyFailed st.results) = false := by
      simp [noFF]
    simp only [runPar, hcond, hcond2, Bool.false_eq_true, if_false]
    obtain ⟨heq, hNF', hcov'⟩ :=
      execBatch_config g hG cfg now st.results st.outputs hcov b st
        (hbs b (List.mem_cons_self b bs)) hNF hcov
    rw [← heq]
    exact ih (execBatch cfg now st.results st.outputs b st)
      (fun b' hb' => hbs b' (List.mem_cons_of_mem b hb')) hNF' hcov'

theorem readyBatch_subset (g : TaskGraph) (done : List String) :
    ∀ t ∈ readyBatch g done, t ∈ g := by
  intro t ht
  exact ((mem_readyBatch g done t).mp ht).1

/-- Async execution ignores `fail_fast` when no task ever fails. -/
theorem runAsync_config (g : TaskGraph) (hG : GoodBodies g)
    (cfg : EngineConfig) (now : Nat) :
    ∀ (fuel : Nat) (st : ExecState),
      NoFailed st.results → Covered st.results st.outputs →
      runAsync cfg now g fuel st = runAsync (noFF cfg) now g fuel st ∧
      NoFailed (runAsync cfg now g fuel st).results ∧
      Covered (runAsync cfg now g fuel st).results (runAsync cfg now g fuel st).outputs := by
  intro fuel
  induction fuel with
  | zero => intro st hNF hcov; exact ⟨rfl, hNF, hcov⟩
  | succ fuel ih =>
    intro st hNF hcov
    have hcond : (cfg.fail_fast && anyFailed st.results) = false := by
      unfold NoFailed at hNF
      rw [hNF, Bool.and_false]
    have hcond2 : ((noFF cfg).fail_fast && anyFailed st.results) = false := by
      simp [noFF]
    simp only [runAsync, hcond, hcond2, Bool.false_eq_true, if_false]
    by_cases hb : (readyBatch g (st.results.map (fun r => r.task_name))).isEmpty
    · rw [if_pos hb, if_pos hb]
      exact ⟨rfl, hNF, hcov⟩
    · rw [if_neg hb, if_neg hb]
      obtain ⟨heq, hNF', hcov'⟩ :=
        execBatch_config g hG cfg now st.results st.outputs hcov
          (readyBatch g (st.results.map (fun r => r.task_name))) st
          (readyBatch_subset g _) hNF hcov
      rw [← heq]
      exact ih (execBatch cfg now st.results st.outputs
        (readyBatch g (st.results.map (fun r => r.task_name))) st) hNF' hcov'

theorem batchesAux_subset (g : TaskGraph) :
    ∀ (fuel : Nat) (done : List String) (t : TaskDef),
      t ∈ (batchesAux g fuel done).flatten → t ∈ g := by
  intro fuel
  induction fuel with
  | zero => intro done t ht; simp [batchesAux] at ht
  | succ fuel ih =>
    intro done t ht
    rw [batchesAux_succ] at ht
    by_cases hb : (readyBatch g done).isEmpty
    · rw [if_pos hb] at ht; cases ht
    · rw [if_neg hb, List.flatten_cons] at ht
      rcases List.mem_append.mp ht with h1 | h1
      · exact readyBatch_subset g done t h1
      · exact ih _ t h1

theorem modes_state_agree (g : TaskGraph) (ecfg : EngineConfig) (now : Nat)
    (h : ecfg.fail_fast = false ∨ GoodBodies g) (st0 : ExecState)
    (hres0 : st0.results = []) :
    runSeq ecfg now (topological_batches g).flatten st0
      = runPar ecfg now (topological_batches g) st0 ∧
    runPar ecfg now (topological_batches g) st0
      = runAsync ecfg now g g.length st0 := by
  unfold topological_batches
  rcases h with hff | hGB
  · refine ⟨runSeq_eq_runPar ecfg now hff g g.length [] st0, ?_⟩
    have hasy := runAsync_eq_runPar ecfg now hff g g.length st0
    rw [hres0] at hasy
    simpa using hasy.symm
  · have hNF : NoFailed st0.results := by rw [hres0]; rfl
    have hcov : Covered st0.results st0.outputs := by
      rw [hres0]; intro r hr; cases hr
    obtain ⟨hseq, _, _⟩ := runSeq_config g hGB ecfg now (batchesAux g g.length []).flatten
      st0 (fun t ht => batchesAux_subset g g.length [] t ht) hNF hcov
    obtain ⟨hpar, _, _⟩ := runPar_config g hGB ecfg now (batchesAux g g.length []) st0
      (fun b hb t ht => batchesAux_subset g g.length [] t
        (List.mem_flatten.mpr ⟨b, hb, ht⟩)) hNF hcov
    obtain ⟨hasy, _, _⟩ := runAsync_config g hGB ecfg now g.length st0 hNF hcov
    have hffn : (noFF ecfg).fail_fast = false := rfl
    constructor
    · rw [hseq, hpar]
      exact runSeq_eq_runPar (noFF ecfg) now hffn g g.length [] st0
    · rw [hpar, hasy]
      have hasy2 := runAsync_eq_runPar (noFF ecfg) now hffn g g.length st0
      rw [hres0] at hasy2
      simpa using hasy2.symm

/-- C4 (amended): for every deterministic task graph, running the
pipeline in the three execution modes (sequential, parallel, async)
produces identical `RunOutput` content — same results, outputs, cache
store and invocation trace — provided `fail_fast` is disabled or no
task body can fail (each body succeeds and each retry policy grants at
least one attempt).  With `fail_fast` enabled and a failing task, the
modes may legitimately differ (see the counterexample). -/
theorem execution_modes_agree (cfg : PipelineConfig) (g : TaskGraph)
    (inputs : List (String × Val)) (store : CacheStore) (now : Nat) (dr : Bool)
    (h : cfg.fail_fast = false ∨ GoodBodies g) :
    pipelineRun { cfg with execution_mode := ExecutionMode.sequential }
        g inputs store now dr
      = pipelineRun { cfg with execution_mode := ExecutionMode.parallel }
        g inputs store now dr ∧
    pipelineRun { cfg with execution_mode := ExecutionMode.parallel }
        g inputs store now dr
      = pipelineRun { cfg with execution_mode := ExecutionMode.async }
        g inputs store now dr := by
  unfold pipelineRun
  cases hv : validate g with
  | error e => exact ⟨rfl, rfl⟩
  | ok u =>
    cases u
    cases dr
    · dsimp only
      obtain ⟨h1, h2⟩ := modes_state_agree g
        { fail_fast := cfg.fail_fast, enable_caching := cfg.enable_caching } now h
        { results := [], outputs := inputs, store := store, invoked := [] } rfl
      simp only [Bool.false_eq_true, if_false]
      rw [h1, h2]
      exact ⟨rfl, rfl⟩
    · exact ⟨rfl, rfl⟩

/-- C4 counterexample: under the default `fail_fast = true`, a failing
task makes sequential and parallel runs differ: sequential cancels the
independent task `C` while parallel lets it finish with its output. -/
theorem execution_modes_counterexample :
    (pipelineRun { name := "p", execution_mode := ExecutionMode.sequential }
        (scenarioGraph (failBody "boom") (okBody (Val.vint 2)) (okBody (Val.vint 3)))
        [] [] 0 false).result
      ≠ (pipelineRun { name := "p", execution_mode := ExecutionMode.parallel }
        (scenarioGraph (failBody "boom") (okBody (Val.vint 2)) (okBody (Val.vint 3)))
        [] [] 0 false).result := by
  intro he
  have hC := congrArg (fun r => findResult r.task_results "C") he
  simp only [pipelineRun, scenario_valid, scenario_flat] at hC
  simp only [runSeq, runPar, dispatch, execTask, resolveInputs, retryRun, markResult,
    recordOutcome, depsAllSucceeded, depsFailedOrSkipped, anyFailed, mkResult,
    findResult, lookupV, cacheLookup, execBatch, markAborted, failBody, okBody] at hC
  simp at hC

def cfgNFSeq : PipelineConfig :=
  { name := "p", fail_fast := false, execution_mode := ExecutionMode.sequential }

def cfgNFPar : PipelineConfig :=
  { name := "p", fail_fast := false, execution_mode := ExecutionMode.parallel }

def cfgNFAsy : PipelineConfig :=
  { name := "p", fail_fast := false, execution_mode := ExecutionMode.async }

/-- Witness for C4 at a concrete three-task chain with `fail_fast`
disabled. -/
theorem execution_modes_agree_witness :
    pipelineRun cfgNFSeq chainG [] [] 0 false
      = pipelineRun cfgNFPar chainG [] [] 0 false ∧
    pipelineRun cfgNFPar chainG [] [] 0 false
      = pipelineRun cfgNFAsy chainG [] [] 0 false :=
  execution_modes_agree { name := "p", fail_fast := false } chainG [] [] 0 false
    (Or.inl rfl)

/-! ## C6 development: the caching round trip -/

/-- What a cached re-execution changes on a task result: it is served
from cache. -/
def bump (r : TaskResult) : TaskResult := { r with cache_hit := true }

theorem anyFailed_map_bump (l : List TaskResult) :
    anyFailed (l.map bump) = anyFailed l := by
  unfold anyFailed
  rw [List.any_map]
  rfl

theorem depsAllSucceeded_map_bump (l : List TaskResult) (t : TaskDef) :
    depsAllSucceeded (l.map bump) t = depsAllSucceeded l t := by
  unfold depsAllSucceeded
  apply congrArg
  funext d
  rw [List.any_map]
  rfl

theorem bump_names (l : List TaskResult) :
    (l.map bump).map (fun r => r.task_name) = l.map (fun r => r.task_name) := by
  rw [List.map_map]
  rfl

theorem find?_append_of_none {α : Type} (p : α → Bool) :
    ∀ (l₁ l₂ : List α), (∀ e ∈ l₁, p e = false) →
      List.find? p (l₁ ++ l₂) = List.find? p l₂ := by
  intro l₁
  induction l₁ with
  | nil => intro l₂ _; rfl
  | cons e l₁ ih =>
    intro l₂ h
    rw [List.cons_append, List.find?_cons_of_neg _ (by simp [h e (List.mem_cons_self e l₁)])]
    exact ih l₂ (fun e' he' => h e' (List.mem_cons_of_mem e he'))

theorem execTask_miss_success (cfg : EngineConfig) (t : TaskDef)
    (outs : List (String × Val)) (store : CacheStore) (now : Nat)
    (ins : List Val) (v : Val) (cp : CachePolicy)
    (hres : resolveInputs outs t.depends_on = Option.some ins)
    (hen : cfg.enable_caching = true)
    (hcp : t.cache_policy = Option.some cp)
    (hmiss : cacheLookup store (t.name, ins) now = Option.none)
    (hbody : t.run ins = Except.ok v)
    (hp : 1 ≤ (t.retry_policy.getD { max_attempts := 1 }).max_attempts) :
    execTask cfg t outs store now
      = { result := { task_name := t.name, state := TaskState.succeeded,
                      output := Option.some v, records_processed := recordsOf v,
                      retries_attempted := 0, cache_hit := false },
          store := cacheInsert store (t.name, ins) v (now + cp.ttl),
          bodyInvoked := true } := by
  unfold execTask
  rw [hres]
  simp only [hen, if_true, hcp, hmiss]
  rw [retryRun_ok t.run ins v hbody _ 0 hp]

theorem execTask_hit (cfg : EngineConfig) (t : TaskDef)
    (outs : List (String × Val)) (store : CacheStore) (now : Nat)
    (ins : List Val) (v : Val) (cp : CachePolicy)
    (hres : resolveInputs outs t.depends_on = Option.some ins)
    (hen : cfg.enable_caching = true)
    (hcp : t.cache_policy = Option.some cp)
    (hhit : cacheLookup store (t.name, ins) now = Option.some v) :
    execTask cfg t outs store now
      = { result := { task_name := t.name, state := TaskState.succeeded,
                      output := Option.some v, records_processed := recordsOf v,
                      retries_attempted := 0, cache_hit := true },
          store := store, bodyInvoked := false } := by
  unfold execTask
  rw [hres]
  simp only [hen, if_true, hcp, hhit]

/-- The cache store only grows during a sequential run, and every added
entry is keyed by the name of one of the executed tasks. -/
theorem runSeq_store_mono (cfg : EngineConfig) (now : Nat) :
    ∀ (ts : List TaskDef) (st : ExecState),
      ∃ new, (runSeq cfg now ts st).store = new ++ st.store ∧
        ∀ e ∈ new, e.key.1 ∈ ts.map (fun t => t.name) := by
  intro ts
  induction ts with
  | nil => intro st; exact ⟨[], rfl, by simp⟩
  | cons t ts ih =>
    intro st
    simp only [runSeq]
    by_cases hcond : (cfg.fail_fast && anyFailed st.results) = true
    · rw [if_pos hcond]
      by_cases hds : depsFailedOrSkipped st.results t = true
      · rw [if_pos hds]
        obtain ⟨new, hnew, hnames⟩ := ih (markResult st t TaskState.skipped)
        refine ⟨new, hnew, fun e he => List.mem_cons_of_mem _ (hnames e he)⟩
      · rw [if_neg hds]
        obtain ⟨new, hnew, hnames⟩ := ih (markResult st t TaskState.cancelled)
        refine ⟨new, hnew, fun e he => List.mem_cons_of_mem _ (hnames e he)⟩
    · rw [if_neg hcond]
      have hstep : ∃ δ, (dispatch cfg now st.results st.outputs st t).store
          = δ ++ st.store ∧ ∀ e ∈ δ, e.key.1 = t.name := by
        unfold dispatch
        by_cases hd : depsAllSucceeded st.results t = true
        · rw [if_pos hd]
          unfold recordOutcome execTask
          cases hres : resolveInputs st.outputs t.depends_on with
          | none => exact ⟨[], rfl, by simp⟩
          | some ins =>
            dsimp only
            cases hcache : (if cfg.enable_caching then
                match t.cache_policy with
                | Option.some _ => cacheLookup st.store (t.name, ins) now
                | Option.none => Option.none
              else Option.none) with
            | some v => exact ⟨[], rfl, by simp⟩
            | none =>
              dsimp only
              cases hr : (retryRun t.run ins
                  (t.retry_policy.getD { max_attempts := 1 }).max_attempts 0).2 with
              | ok v =>
                dsimp only
                by_cases hen : cfg.enable_caching = true
                · rw [if_pos hen]
                  cases hcp : t.cache_policy with
                  | some cp =>
                    refine ⟨[⟨(t.name, ins), v, now + cp.ttl⟩], rfl, ?_⟩
                    intro e he
                    rw [List.mem_singleton] at he
                    rw [he]
                  | none => exact ⟨[], rfl, by simp⟩
                · rw [if_neg hen]
                  exact ⟨[], rfl, by simp⟩
              | error e => exact ⟨[], rfl, by simp⟩
        · rw [if_neg hd]
          exact ⟨[], rfl, by simp⟩
      obtain ⟨δ, hδ, hδn⟩ := hstep
      obtain ⟨new, hnew, hnames⟩ := ih (dispatch cfg now st.results st.outputs st t)
      refine ⟨new ++ δ, by rw [hnew, hδ, List.append_assoc], ?_⟩
      intro e he
      rcases List.mem_append.mp he with he | he
      · exact List.mem_cons_of_mem _ (hnames e he)
      · rw [List.map_cons]
        exact List.mem_cons.mpr (Or.inl (hδn e he))

/-- The dependency discipline of a flattened batch sequence: when a task
comes up, all of its dependencies are already done. -/
def OrderedDeps (done : List String) : List TaskDef → Prop
  | [] => True
  | t :: ts => (∀ d ∈ t.depends_on, d ∈ done) ∧ OrderedDeps (done ++ [t.name]) ts

theorem orderedDeps_mono : ∀ (ts : List TaskDef) (done done' : List String),
    (∀ x ∈ done, x ∈ done') → OrderedDeps done ts → OrderedDeps done' ts := by
  intro ts
  induction ts with
  | nil => intro done done' _ _; trivial
  | cons t ts ih =>
    intro done done' hsub h
    refine ⟨fun d hd => hsub d (h.1 d hd), ?_⟩
    refine ih (done ++ [t.name]) (done' ++ [t.name]) ?_ h.2
    intro x hx
    rcases List.mem_append.mp hx with hx | hx
    · exact List.mem_append.mpr (Or.inl (hsub x hx))
    · exact List.mem_append.mpr (Or.inr hx)

theorem orderedDeps_append : ∀ (b l : List TaskDef) (done : List String),
    (∀ t ∈ b, ∀ d ∈ t.depends_on, d ∈ done) →
    OrderedDeps (done ++ b.map (fun t => t.name)) l →
    OrderedDeps done (b ++ l) := by
  intro b
  induction b with
  | nil =>
    intro l done _ h
    simpa using h
  | cons t b' ih =>
    intro l done hdeps h
    refine ⟨hdeps t (List.mem_cons_self t b'), ?_⟩
    refine ih l (done ++ [t.name]) ?_ ?_
    · intro u hu d hd
      exact List.mem_append.mpr (Or.inl (hdeps u (List.mem_cons_of_mem t hu) d hd))
    · have harr : done ++ [t.name] ++ b'.map (fun u => u.name)
          = done ++ (t :: b').map (fun u => u.name) := by simp
      rw [harr]
      exact h

theorem batchesAux_orderedDeps (g : TaskGraph) :
    ∀ (fuel : Nat) (done : List String),
      OrderedDeps done (batchesAux g fuel done).flatten := by
  intro fuel
  induction fuel with
  | zero => intro done; trivial
  | succ fuel ih =>
    intro done
    rw [batchesAux_succ]
    by_cases hb : (readyBatch g done).isEmpty
    · rw [if_pos hb]; trivial
    · rw [if_neg hb, List.flatten_cons]
      refine orderedDeps_append (readyBatch g done) _ done ?_ (ih _)
      intro t ht
      exact ((mem_readyBatch g done t).mp ht).2.2

theorem anyFailed_of_succeeded (res : List TaskResult)
    (h : ∀ r ∈ res, r.state = TaskState.succeeded ∧ r.cache_hit = false ∧
      r.retries_attempted = 0) : anyFailed res = false := by
  unfold anyFailed
  rw [List.any_eq_false]
  intro r hr
  simp [(h r hr).1]

/-- The paired simulation at the heart of the caching round trip: the
second run reproduces the first run result-for-result, every result
served from the cache built by the first run, never invoking a body and
never touching the store. -/
theorem runSeq_cached_pair (g : TaskGraph) (hG : GoodBodies g)
    (cfg : EngineConfig) (hen : cfg.enable_caching = true) (t0 t1 : Nat)
    (hcp : ∀ t ∈ g, (t.cache_policy).isSome = true)
    (httl : ∀ t ∈ g, ∀ cp, t.cache_policy = Option.some cp → t1 < t0 + cp.ttl) :
    ∀ (ts : List TaskDef) (st1 st2 : ExecState),
      (∀ t ∈ ts, t ∈ g) →
      OrderedDeps (st1.results.map (fun r => r.task_name)) ts →
      ((st1.results.map (fun r => r.task_name)) ++ ts.map (fun t => t.name)).Nodup →
      (∀ r ∈ st1.results, r.state = TaskState.succeeded ∧ r.cache_hit = false ∧
        r.retries_attempted = 0) →
      st2.results = st1.results.map bump →
      st2.outputs = st1.outputs →
      Covered st1.results st1.outputs →
      (∀ e ∈ st1.store, e.key.1 ∈ st1.results.map (fun r => r.task_name)) →
      st2.store = (runSeq cfg t0 ts st1).store →
      runSeq cfg t1 ts st2
        = { results := (runSeq cfg t0 ts st1).results.map bump,
            outputs := (runSeq cfg t0 ts st1).outputs,
            store := (runSeq cfg t0 ts st1).store,
            invoked := st2.invoked } ∧
      (∀ r ∈ (runSeq cfg t0 ts st1).results, r.state = TaskState.succeeded ∧
        r.cache_hit = false ∧ r.retries_attempted = 0) := by
  intro ts
  induction ts with
  | nil =>
    intro st1 st2 _ _ _ hgood hbres houts _ _ hS
    refine ⟨?_, hgood⟩
    show st2 = _
    obtain ⟨r2, o2, s2, i2⟩ := st2
    simp only [runSeq] at hS ⊢
    simp only at hbres houts hS
    rw [hbres, houts, hS]
  | cons t ts' ih =>
    intro st1 st2 hts hord hnodup hgood hbres houts hcov hstore hS
    have htg : t ∈ g := hts t (List.mem_cons_self t ts')
    have hNF1 : anyFailed st1.results = false := anyFailed_of_succeeded _ hgood
    have hcond1 : (cfg.fail_fast && anyFailed st1.results) = false := by
      rw [hNF1, Bool.and_false]
    have hcond2 : (cfg.fail_fast && anyFailed st2.results) = false := by
      rw [hbres, anyFailed_map_bump, hNF1, Bool.and_false]
    -- name bookkeeping
    have hnd1 : t.name ∉ st1.results.map (fun r => r.task_name) := by
      rw [List.nodup_append] at hnodup
      intro hmem
      exact hnodup.2.2 hmem (by simp)
    have hnd2 : t.name ∉ ts'.map (fun u => u.name) := by
      rw [List.nodup_append] at hnodup
      have := hnodup.2.1
      rw [List.map_cons, List.nodup_cons] at this
      exact this.1
    -- run 1 executes t
    have hsucc : depsAllSucceeded st1.results t = true := by
      rw [depsAllSucceeded_iff]
      intro d hd
      have hdone := hord.1 d hd
      obtain ⟨r, hr, hrn⟩ := List.mem_map.mp hdone
      exact ⟨r, hr, hrn, (hgood r hr).1⟩
    have hlk : ∀ d ∈ t.depends_on, (lookupV st1.outputs d).isSome = true := by
      intro d hd
      obtain ⟨r, hr, hrn⟩ := List.mem_map.mp (hord.1 d hd)
      have := hcov r hr (hgood r hr).1
      rw [hrn] at this
      exact this
    obtain ⟨ins, hins⟩ := resolveInputs_isSome st1.outputs t.depends_on hlk
    obtain ⟨cp, hcpt⟩ := Option.isSome_iff_exists.mp (hcp t htg)
    obtain ⟨v, hv⟩ := hG.1 t htg ins
    have hmiss1 : cacheLookup st1.store (t.name, ins) t0 = Option.none := by
      unfold cacheLookup
      have : st1.store.find? (fun e => e.key = (t.name, ins)) = Option.none := by
        rw [List.find?_eq_none]
        intro e he
        simp only [decide_eq_true_eq]
        intro hkey
        apply hnd1
        rw [← show e.key.1 = t.name from by rw [hkey]]
        exact hstore e he
      rw [this]
    have hexec1 : execTask cfg t st1.outputs st1.store t0
        = { result := { task_name := t.name, state := TaskState.succeeded,
                        output := Option.some v, records_processed := recordsOf v,
                        retries_attempted := 0, cache_hit := false },
            store := cacheInsert st1.store (t.name, ins) v (t0 + cp.ttl),
            bodyInvoked := true } :=
      execTask_miss_success cfg t st1.outputs st1.store t0 ins v cp hins hen hcpt
        hmiss1 hv (hG.2 t htg)
    have hrun1 : runSeq cfg t0 (t :: ts') st1
        = runSeq cfg t0 ts'
            (recordOutcome st1 t
              { result := { task_name := t.name, state := TaskState.succeeded,
                            output := Option.some v, records_processed := recordsOf v,
                            retries_attempted := 0, cache_hit := false },
                store := cacheInsert st1.store (t.name, ins) v (t0 + cp.ttl),
                bodyInvoked := true }) := by
      simp only [runSeq, hcond1, Bool.false_eq_true, if_false]
      unfold dispatch
      rw [if_pos hsucc, hexec1]
    -- run 2 hits the cache for t
    have hins2 : resolveInputs st2.outputs t.depends_on = Option.some ins := by
      rw [houts]; exact hins
    have hhit : cacheLookup st2.store (t.name, ins) t1 = Option.some v := by
      rw [hS, hrun1]
      obtain ⟨new, hnew, hnames⟩ := runSeq_store_mono cfg t0 ts'
        (recordOutcome st1 t
          { result := { task_name := t.name, state := TaskState.succeeded,
                        output := Option.some v, records_processed := recordsOf v,
                        retries_attempted := 0, cache_hit := false },
            store := cacheInsert st1.store (t.name, ins) v (t0 + cp.ttl),
            bodyInvoked := true })
      unfold cacheLookup
      rw [hnew]
      have hnone : ∀ e ∈ new,
          (decide (e.key = ((t.name, ins) : String × List Val))) = false := by
        intro e he
        simp only [decide_eq_false_iff_not]
        intro hkey
        apply hnd2
        have hk1 : e.key.1 = t.name := by rw [hkey]
        rw [← hk1]
        exact hnames e he
      rw [find?_append_of_none _ new _ hnone]
      dsimp only [recordOutcome, cacheInsert]
      rw [List.find?_cons_of_pos _ (by simp)]
      dsimp only
      rw [if_pos (httl t htg cp hcpt)]
    have hexec2 : execTask cfg t st2.outputs st2.store t1
        = { result := { task_name := t.name, state := TaskState.succeeded,
                        output := Option.some v, records_processed := recordsOf v,
                        retries_attempted := 0, cache_hit := true },
            store := st2.store, bodyInvoked := false } :=
      execTask_hit cfg t st2.outputs st2.store t1 ins v cp hins2 hen hcpt hhit
    have hsucc2 : depsAllSucceeded st2.results t = true := by
      rw [hbres, depsAllSucceeded_map_bump]
      exact hsucc
    have hrun2 : runSeq cfg t1 (t :: ts') st2
        = runSeq cfg t1 ts'
            (recordOutcome st2 t
              { result := { task_name := t.name, state := TaskState.succeeded,
                            output := Option.some v, records_processed := recordsOf v,
                            retries_attempted := 0, cache_hit := true },
                store := st2.store, bodyInvoked := false }) := by
      simp only [runSeq, hcond2, Bool.false_eq_true, if_false]
      unfold dispatch
      rw [if_pos hsucc2, hexec2]
    rw [hrun1, hrun2]
    -- apply the induction hypothesis at the extended states
    have hih := ih (recordOutcome st1 t
        { result := { task_name := t.name, state := TaskState.succeeded,
                      output := Option.some v, records_processed := recordsOf v,
                      retries_attempted := 0, cache_hit := false },
          store := cacheInsert st1.store (t.name, ins) v (t0 + cp.ttl),
          bodyInvoked := true })
      (recordOutcome st2 t
        { result := { task_name := t.name, state := TaskState.succeeded,
                      output := Option.some v, records_processed := recordsOf v,
                      retries_attempted := 0, cache_hit := true },
          store := st2.store, bodyInvoked := false })
      (fun u hu => hts u (List.mem_cons_of_mem t hu))
      (by
        dsimp only [recordOutcome]
        rw [List.map_append]
        exact hord.2)
      (by
        dsimp only [recordOutcome]
        rw [List.map_append]
        simpa [List.append_assoc] using hnodup)
      (by
        dsimp only [recordOutcome]
        intro r hr
        rcases List.mem_append.mp hr with hr | hr
        · exact hgood r hr
        · rw [List.mem_singleton] at hr
          rw [hr]
          exact ⟨rfl, rfl, rfl⟩)
      (by
        dsimp only [recordOutcome]
        rw [List.map_append, hbres]
        rfl)
      (by
        dsimp only [recordOutcome]
        rw [houts])
      (by
        dsimp only [recordOutcome, Covered]
        intro r hr hrs
        rcases List.mem_append.mp hr with hr | hr
        · exact lookupV_isSome_append st1.outputs (t.name, v) r.task_name
            (hcov r hr hrs)
        · rw [List.mem_singleton] at hr
          rw [hr]
          exact lookupV_self_append st1.outputs t.name v)
      (by
        dsimp only [recordOutcome, cacheInsert]
        intro e he
        rw [List.map_append]
        rcases List.mem_cons.mp he with he | he
        · rw [he]
          exact List.mem_append.mpr (Or.inr (by simp))
        · exact List.mem_append.mpr (Or.inl (hstore e he)))
      (by
        dsimp only [recordOutcome]
        rw [hS, hrun1]
        dsimp only [recordOutcome])
    refine ⟨?_, hih.2⟩
    rw [hih.1]
    have hinv : (recordOutcome st2 t
        { result := { task_name := t.name, state := TaskState.succeeded,
                      output := Option.some v, records_processed := recordsOf v,
                      retries_attempted := 0, cache_hit := true },
          store := st2.store, bodyInvoked := false }).invoked = st2.invoked := by
      simp [recordOutcome]
    rw [hinv]

/-- C6: running a pipeline twice with `enable_caching = true` over
deterministic, always-succeeding cached tasks produces identical
results on both runs — the second run's results are exactly the first
run's with `cache_hit` flipped on: same outputs, `cache_hit = false`
then `cache_hit = true` within TTL, with `retries_attempted = 0` on
every cached result. -/
theorem cache_roundtrip (cfg : PipelineConfig) (g : TaskGraph)
    (inputs : List (String × Val)) (t0 t1 : Nat)
    (hmode : cfg.execution_mode = ExecutionMode.sequential)
    (hcache : cfg.enable_caching = true)
    (hnd : (taskNames g).Nodup)
    (hG : GoodBodies g)
    (hcp : ∀ t ∈ g, (t.cache_policy).isSome = true)
    (httl : ∀ t ∈ g, ∀ cp, t.cache_policy = Option.some cp → t1 < t0 + cp.ttl) :
    (pipelineRun cfg g inputs (pipelineRun cfg g inputs [] t0 false).store
        t1 false).result.task_results
      = (pipelineRun cfg g inputs [] t0 false).result.task_results.map bump ∧
    (∀ tr ∈ (pipelineRun cfg g inputs [] t0 false).result.task_results,
      tr.state = TaskState.succeeded ∧ tr.cache_hit = false ∧
        tr.retries_attempted = 0) ∧
    (∀ tr ∈ (pipelineRun cfg g inputs (pipelineRun cfg g inputs [] t0 false).store
        t1 false).result.task_results,
      tr.cache_hit = true ∧ tr.retries_attempted = 0) ∧
    (pipelineRun cfg g inputs (pipelineRun cfg g inputs [] t0 false).store
        t1 false).outputs
      = (pipelineRun cfg g inputs [] t0 false).outputs := by
  cases hv : validate g with
  | error e =>
    simp only [pipelineRun, hv]
    simp
  | ok u =>
    cases u
    simp only [pipelineRun, hv, hmode, Bool.false_eq_true, if_false]
    obtain ⟨heq, hgoodF⟩ := runSeq_cached_pair g hG
      ⟨cfg.fail_fast, cfg.enable_caching⟩ hcache t0 t1
      hcp httl (topological_batches g).flatten
      ⟨[], inputs, [], []⟩
      ⟨[], inputs,
        (runSeq ⟨cfg.fail_fast, cfg.enable_caching⟩ t0 (topological_batches g).flatten
          ⟨[], inputs, [], []⟩).store, []⟩
      (fun t ht => batchesAux_subset g g.length [] t ht)
      (batchesAux_orderedDeps g g.length [])
      (by simpa using (batchesAux_names g hnd g.length []).2)
      (by intro r hr; cases hr)
      rfl rfl
      (by intro r hr; cases hr)
      (by intro e he; cases he)
      rfl
    rw [heq]
    refine ⟨rfl, ?_, ?_, rfl⟩
    · intro tr htr
      exact hgoodF tr htr
    · intro tr htr
      obtain ⟨r, hr, hrfl⟩ := List.mem_map.mp htr
      rw [← hrfl]
      exact ⟨rfl, (hgoodF r hr).2.2⟩

def cacheCfg : PipelineConfig := { name := "p" }

def cacheG : TaskGraph :=
  [ { name := "D", cache_policy := Option.some { ttl := 100 },
      run := okBody (Val.vint 7) } ]

/-- Witness for C6 at a concrete single cached task, second run at
logical time 50 within a TTL of 100. -/
theorem cache_roundtrip_witness :
    (pipelineRun cacheCfg cacheG [] (pipelineRun cacheCfg cacheG [] [] 0 false).store
        50 false).result.task_results
      = (pipelineRun cacheCfg cacheG [] [] 0 false).result.task_results.map bump :=
  (cache_roundtrip cacheCfg cacheG [] 0 50 rfl rfl (by decide)
    ⟨by
      intro t ht ins
      simp only [cacheG, List.mem_singleton] at ht
      subst ht
      exact ⟨Val.vint 7, rfl⟩,
     by
      intro t ht
      simp only [cacheG, List.mem_singleton] at ht
      subst ht
      decide⟩
    (by
      intro t ht
      simp only [cacheG, List.mem_singleton] at ht
      subst ht
      rfl)
    (by
      intro t ht cp hcpt
      simp only [cacheG, List.mem_singleton] at ht
      subst ht
      injection hcpt with hcpt
      subst hcpt
      decide)).1

end Mosayc
